import Mathlib

set_option maxHeartbeats 1000000

/-!
Verification development for the patchwork dependency and synchronization
engine.  The TypeScript sources are shallowly embedded: JavaScript Maps and
Sets become insertion-ordered association lists, external git effects become
explicit state passing, and per-patch apply outcomes become boolean oracles.
-/

/-- Association-list lookup with the semantics of JavaScript Map.get. -/
def alistLookup {α : Type} (m : List (String × α)) (k : String) : Option α :=
  (m.find? (fun e => e.1 == k)).map (fun e => e.2)

/-- JavaScript Map.set: update the value in place when the key is present,
append a fresh entry otherwise (insertion order is preserved). -/
def jsMapSet {α : Type} (m : List (String × α)) (k : String) (v : α) :
    List (String × α) :=
  if m.any (fun e => e.1 == k) then
    m.map (fun e => if e.1 == k then (k, v) else e)
  else m ++ [(k, v)]

/-- JavaScript Set.add: insertion-ordered and duplicate free. -/
def jsSetInsert (s : List String) (x : String) : List String :=
  if s.contains x then s else s ++ [x]

/-- Lexicographic comparison of char lists by code point, the comparison
JavaScript string sort and the Lean string order both implement on the
strings appearing here. -/
def charListLe : List Char → List Char → Bool
  | [], _ => true
  | _ :: _, [] => false
  | a :: as, b :: bs =>
    if a < b then true else if a = b then charListLe as bs else false

/-- String order used by Array.prototype.sort. -/
def strLe (a b : String) : Bool :=
  charListLe a.toList b.toList

/-- String.prototype.startsWith. -/
def jsStartsWith (s pre : String) : Bool :=
  pre.toList.isPrefixOf s.toList

/-- String.prototype.endsWith. -/
def jsEndsWith (s suffix : String) : Bool :=
  suffix.toList.isSuffixOf s.toList

/-- Split a char list at every occurrence of the separator. -/
def splitOnChar (c : Char) : List Char → List (List Char)
  | [] => [[]]
  | x :: xs =>
    match splitOnChar c xs with
    | [] => [[]]
    | h :: t => if x = c then [] :: h :: t else (x :: h) :: t

/-- String.prototype.split with a one-character separator. -/
def jsSplit (s : String) (c : Char) : List String :=
  (splitOnChar c s.toList).map (fun l => String.mk l)

/-- String.prototype.trim (whitespace stripped from both ends). -/
def jsTrim (s : String) : String :=
  String.mk
    (((s.toList.dropWhile (fun c => c.isWhitespace)).reverse.dropWhile
      (fun c => c.isWhitespace)).reverse)

/-- Array.prototype.join with the newline separator. -/
def joinLines (ls : List String) : String :=
  String.mk (List.intercalate ['\n'] (ls.map (fun s => s.toList)))

/-- Patch status from the zod schema in src/git.ts. -/
inductive PatchStatus where
  | active
  | merged
  | abandoned
deriving DecidableEq, Repr

/-- PatchMetadata from the zod schema in src/git.ts. -/
structure PatchMetadata where
  description : Option String := none
  dependencies : Option (List String) := none
  upstreamPR : Option String := none
  status : Option PatchStatus := none
  baseCommit : Option String := none
deriving DecidableEq, Repr

/-- The patches record of the configuration, modeled as a lookup function
(a JavaScript object keyed by patch name). -/
def Manifest : Type := String → Option PatchMetadata

/-- Dependency list of a patch: manifest?.[patch]?.dependencies ?? []. -/
def depsOf (manifest : Manifest) (p : String) : List String :=
  ((manifest p).bind (fun md => md.dependencies)).getD []

/-- DependencyGraph from src/utils/graph.ts: nodes are a Set of patch names,
edges a Map from patch to its dependency list. -/
structure DependencyGraph where
  nodes : List String
  edges : List (String × List String)
deriving DecidableEq, Repr

/-- buildDependencyGraph from src/utils/graph.ts. -/
def buildDependencyGraph (patchFiles : List String) (manifest : Manifest) :
    DependencyGraph :=
  { nodes := patchFiles.foldl jsSetInsert []
  , edges := patchFiles.foldl (fun m p => jsMapSet m p (depsOf manifest p)) [] }

/-- Errors thrown by topologicalSort (CyclicDependencyError and
MissingDependencyError in src/utils/graph.ts). -/
inductive SortError where
  | missingDep (patch dep : String)
  | cyclic (cycle : List String)
deriving DecidableEq, Repr

/-- Validation pass of topologicalSort: the first edge whose dependency is not
a node, in iteration order, or none when every dependency resolves. -/
def findMissingDep (nodes : List String) (edges : List (String × List String)) :
    Option (String × String) :=
  edges.findSome? (fun e =>
    (e.2.find? (fun d => !(nodes.contains d))).map (fun d => (e.1, d)))

/-- In-degree initialisation of topologicalSort: every node is set to 0, then
every edge key is set to the length of its dependency list. -/
def initInDegrees (nodes : List String) (edges : List (String × List String)) :
    List (String × Int) :=
  edges.foldl (fun m e => jsMapSet m e.1 (e.2.length : Int))
    (nodes.foldl (fun m n => jsMapSet m n 0) [])

/-- Reverse-dependency initialisation of topologicalSort: every node starts
with an empty list, then each edge (patch, deps) pushes patch onto the entry
of each of its deps. -/
def initReverseDeps (nodes : List String) (edges : List (String × List String)) :
    List (String × List String) :=
  edges.foldl
    (fun m e => e.2.foldl (fun m2 d =>
      jsMapSet m2 d ((alistLookup m2 d).getD [] ++ [e.1])) m)
    (nodes.foldl (fun m n => jsMapSet m n []) [])

/-- Map.get with the non-null assertion of the source (missing keys read 0;
under the invariants of the loop every key read is present). -/
def lookupInt (m : List (String × Int)) (k : String) : Int :=
  (alistLookup m k).getD 0

/-- One in-degree decrement of the inner loop of topologicalSort: decrement
the entry of the dependent and record it when its degree reaches exactly 0. -/
def decStep (st : List (String × Int) × List String) (dependent : String) :
    List (String × Int) × List String :=
  let nd := lookupInt st.1 dependent - 1
  (jsMapSet st.1 dependent nd, if nd = 0 then st.2 ++ [dependent] else st.2)

/-- Array.prototype.sort on string arrays: the alphabetically sorted
permutation. -/
def sortStrings (l : List String) : List String :=
  l.insertionSort (fun a b => strLe a b = true)

/-- Main Kahn loop of topologicalSort.  Fuel bounds the iteration count; the
loop is entered with fuel = number of nodes, which the invariants proved below
show is never exhausted while the queue is nonempty. -/
def kahnLoop (rev : List (String × List String)) :
    Nat → List (String × Int) → List String → List String → List String
  | 0, _, _, result => result
  | _ + 1, _, [], result => result
  | fuel + 1, degrees, current :: rest, result =>
    let dependents := (alistLookup rev current).getD []
    let st := dependents.foldl decStep (degrees, [])
    kahnLoop rev fuel st.1 (rest ++ sortStrings st.2) (result ++ [current])

/-- Trace of the newly-ready batches appended to the queue by kahnLoop, in
creation order.  This runs the same computation as kahnLoop and only records
the sorted batch pushed at each iteration. -/
def kahnBatches (rev : List (String × List String)) :
    Nat → List (String × Int) → List String → List (List String)
  | 0, _, _ => []
  | _ + 1, _, [] => []
  | fuel + 1, degrees, current :: rest =>
    let dependents := (alistLookup rev current).getD []
    let st := dependents.foldl decStep (degrees, [])
    sortStrings st.2 :: kahnBatches rev fuel st.1 (rest ++ sortStrings st.2)

/-- Depth-first cycle search of detectCycle (error reporting only).  The fuel
bounds recursion depth; the path grows by one distinct node per recursive call
so remaining.length + 1 fuel is never exhausted. -/
def dfsCycle (edges : List (String × List String)) (remaining : List String) :
    Nat → List String → List String → String →
    Option (List String) × List String
  | 0, _, visited, _ => (none, visited)
  | fuel + 1, path, visited, node =>
    if node ∈ path then
      (some (path.drop (path.indexOf node) ++ [node]), visited)
    else if node ∈ visited then (none, visited)
    else
      let deps := ((alistLookup edges node).getD []).filter
        (fun d => remaining.contains d)
      let r := deps.foldl
        (fun (acc : Option (List String) × List String) d =>
          match acc.1 with
          | some c => (some c, acc.2)
          | none => dfsCycle edges remaining fuel (path ++ [node]) acc.2 d)
        (none, visited)
      match r.1 with
      | some c => (some c, r.2)
      | none => (none, r.2 ++ [node])

/-- detectCycle from src/utils/graph.ts: first cycle found by the
depth-first walk over the unvisited remainder, falling back to the remainder
itself. -/
def detectCycle (remaining : List String)
    (edges : List (String × List String)) : List String :=
  let r := remaining.foldl
    (fun (acc : Option (List String) × List String) n =>
      match acc.1 with
      | some _ => acc
      | none => dfsCycle edges remaining (remaining.length + 1) [] acc.2 n)
    (none, [])
  r.1.getD remaining

/-- topologicalSort from src/utils/graph.ts (Kahn with alphabetical
tie-breaking of each ready batch). -/
def topologicalSort (g : DependencyGraph) : Except SortError (List String) :=
  match findMissingDep g.nodes g.edges with
  | some pd => .error (.missingDep pd.1 pd.2)
  | none =>
    let degrees := initInDegrees g.nodes g.edges
    let rev := initReverseDeps g.nodes g.edges
    let seeds := sortStrings (degrees.filterMap
      (fun e => if e.2 = 0 then some e.1 else none))
    let result := kahnLoop rev g.nodes.length degrees seeds []
    if result.length ≠ g.nodes.length then
      .error (.cyclic (detectCycle
        (g.nodes.filter (fun n => !(result.contains n))) g.edges))
    else .ok result

/-- Batches of simultaneously-ready nodes produced by topologicalSort, in
creation order: the sorted zero-in-degree seed batch followed by each sorted
newly-ready batch. -/
def topologicalBatches (g : DependencyGraph) : List (List String) :=
  let degrees := initInDegrees g.nodes g.edges
  let rev := initReverseDeps g.nodes g.edges
  let seeds := sortStrings (degrees.filterMap
    (fun e => if e.2 = 0 then some e.1 else none))
  seeds :: kahnBatches rev g.nodes.length degrees seeds

/-- Readiness in the sense of claim C6 at step i of an emitted order r:
the node is in the graph, not yet appended, and its running in-degree is zero
(every occurrence of a dependency has been decremented, i.e. every dependency
is already appended). -/
def readyAt (g : DependencyGraph) (r : List String) (i : Nat) (p : String) :
    Prop :=
  p ∈ g.nodes ∧ p ∉ r.take i ∧
    ∀ d ∈ (alistLookup g.edges p).getD [], d ∈ r.take i

/-- Claim C6 as stated: whenever topologicalSort succeeds, the node emitted at
every iteration is the lexicographically smallest among all currently ready
nodes. -/
def minReadyDequeue (g : DependencyGraph) : Prop :=
  ∀ r, topologicalSort g = .ok r →
    ∀ i, i < r.length → ∀ p, readyAt g r i p → strLe (r.getD i "") p = true

/-! Patch store (src/utils/patch-refs.ts) over the git object/reference
substrate.  The substrate is external to the repository; it is modeled as a
content-addressed object table plus a reference table, parametrized by the
object-id function so that nothing about the hash beyond content addressing is
assumed. -/

/-- Git substrate state: content-addressed objects (id to content) and
references (full ref name to object id). -/
structure GitRefStore where
  objects : List (String × String)
  refs : List (String × String)
deriving DecidableEq, Repr

/-- Namespaced reference used by the patch store (REFS_PREFIX/name). -/
def patchRefName (name : String) : String :=
  "refs/patchwork/patches/" ++ name

/-- Effect of git hash-object -w --stdin: writing an object that already
exists is a no-op, otherwise the content is stored under its id. -/
def writeObject (hashFn : String → String) (objects : List (String × String))
    (content : String) : List (String × String) :=
  if (alistLookup objects (hashFn content)).isSome then objects
  else objects ++ [(hashFn content, content)]

/-- storePatchRef from src/utils/patch-refs.ts: write the content as a blob,
then point the namespaced ref at the resulting object id. -/
def storePatchRef (hashFn : String → String) (st : GitRefStore)
    (name content : String) : GitRefStore :=
  { objects := writeObject hashFn st.objects content
  , refs := jsMapSet st.refs (patchRefName name) (hashFn content) }

/-- readPatchRef from src/utils/patch-refs.ts: git cat-file blob on the
namespaced ref, routed through exec in src/git.ts which returns
stdout.toString().trim(), so the blob content comes back trimmed (none
models the failure of exec when the ref does not exist). -/
def readPatchRef (st : GitRefStore) (name : String) : Option String :=
  ((alistLookup st.refs (patchRefName name)).bind
    (fun h => alistLookup st.objects h)).map jsTrim

/-! Patch body parser (parsePatch in src/commands/sync.ts). -/

/-- Parsed patch returned by parsePatch. -/
structure ParsedPatch where
  message : String
  diff : String
  subject : String
deriving DecidableEq, Repr

/-- Model of line.replace with the anchored pattern Subject: whitespace*
[PATCH] whitespace*, followed by .trim(); when the pattern does not match the
line is only trimmed. -/
def jsStripSubjectPatchTag (line : String) : String :=
  let cs := line.toList
  if cs.take 8 = "Subject:".toList then
    let rest := (cs.drop 8).dropWhile (fun c => c.isWhitespace)
    if rest.take 7 = "[PATCH]".toList then
      jsTrim (String.mk ((rest.drop 7).dropWhile (fun c => c.isWhitespace)))
    else jsTrim line
  else jsTrim line

/-- Drop trailing lines whose trim is empty (the while/pop loop of
parsePatch). -/
def dropTrailingBlanks (l : List String) : List String :=
  (l.reverse.dropWhile (fun s => jsTrim s = "")).reverse

/-- Message-line extraction of parsePatch: the body lines strictly between
the first blank line (end of the header block) and the diff, with trailing
blank lines dropped; empty when there is no blank line before the diff. -/
def headerMessageLines (lines : List String) (diffStart : Nat) : List String :=
  match lines.findIdx? (fun line => jsTrim line = "") with
  | some headerEnd =>
    if headerEnd < diffStart then
      dropTrailingBlanks ((lines.drop (headerEnd + 1)).take
        (diffStart - (headerEnd + 1)))
    else []
  | none => []

/-- parsePatch from src/commands/sync.ts. -/
def parsePatch (patchText : String) : Except String ParsedPatch :=
  let lines := jsSplit patchText '\n'
  match lines.findIdx? (fun line => jsStartsWith line "diff --git ") with
  | none => .error "Invalid patch: missing diff content"
  | some diffStart =>
    let subjectLine := lines.find? (fun line => jsStartsWith line "Subject: ")
    let fallbackSubject := match subjectLine with
      | some l => jsStripSubjectPatchTag l
      | none => "apply patch"
    let messageLines := headerMessageLines lines diffStart
    let message0 := jsTrim (joinLines messageLines)
    let message := if message0 = "" then fallbackSubject else message0
    let subject0 := ((jsSplit message '\n').head?).getD ""
    let subject := if subject0 = "" then fallbackSubject else subject0
    .ok { message := message
        , diff := joinLines (lines.drop diffStart)
        , subject := subject }

/-- The commit message as claim C7 words it: the non-empty body lines between
the header block (ended by the first blank line) and the diff when present,
else the Subject line with its [PATCH] marker stripped, else the literal
fallback. -/
def claimDerivedMessage (patchText : String) : String :=
  let lines := jsSplit patchText '\n'
  let diffStart := (lines.findIdx?
    (fun line => jsStartsWith line "diff --git ")).getD lines.length
  let body := jsTrim (joinLines (headerMessageLines lines diffStart))
  if body ≠ "" then body
  else match lines.find? (fun line => jsStartsWith line "Subject: ") with
    | some l => jsStripSubjectPatchTag l
    | none => "apply patch"

/-! Next patch number (getNextPatchNumber in src/utils/patch-refs.ts). -/

/-- Model of JavaScript parseInt(s, 10): skip leading whitespace, optional
sign, then a nonempty run of decimal digits; none models NaN. -/
def jsParseInt (s : String) : Option Int :=
  let cs := s.toList.dropWhile (fun c => c.isWhitespace)
  let signed : Int × List Char :=
    match cs with
    | '-' :: t => (-1, t)
    | '+' :: t => (1, t)
    | _ => (1, cs)
  let digits := signed.2.takeWhile (fun c => c.isDigit)
  if digits.isEmpty then none
  else some (signed.1 *
    (digits.foldl (fun n c => n * 10 + (c.toNat - '0'.toNat)) 0 : Nat))

/-- Numbers considered by getNextPatchNumber: stored names ending in .patch
whose segment before the first dash parses as a number. -/
def patchNumbers (patches : List String) : List Int :=
  (patches.filter (fun name => jsEndsWith name ".patch")).filterMap
    (fun name => jsParseInt (((jsSplit name '-').head?).getD "0"))

/-- getNextPatchNumber from src/utils/patch-refs.ts: max + 1 over the parsed
numbers, or 1 when no name yields a number. -/
def getNextPatchNumber (patches : List String) : Int :=
  match patchNumbers patches with
  | [] => 1
  | x :: xs => xs.foldl max x + 1

/-! Resolution cache synchronizer (src/utils/rerere-cache.ts).  An rr-cache
entry directory is modeled by the optional contents of its preimage and
postimage files (none = file absent). -/

/-- One rr-cache entry directory. -/
structure RerereEntry where
  preimage : Option String := none
  postimage : Option String := none
deriving DecidableEq, Repr

/-- The local rr-cache: directory name (conflict hash) to entry. -/
def RerereCache : Type := List (String × RerereEntry)

/-- JavaScript falsiness of a nullable string (null or empty). -/
def jsFalsyStr (o : Option String) : Bool :=
  o.getD "" == ""

/-- captureNewRerereEntries from src/utils/rerere-cache.ts: hashes present in
the cache but not in the previous snapshot whose postimage file exists. -/
def captureNewRerereEntries (previousHashes : List String)
    (cache : RerereCache) : List String :=
  (cache.map (fun e => e.1)).foldl
    (fun acc h =>
      if previousHashes.contains h then acc
      else if (((alistLookup cache h).bind
          (fun e => e.postimage)).isSome) then acc ++ [h]
      else acc) []

/-- storeRerereRef from src/utils/rerere-cache.ts acting on the shared
namespace (refs/patchwork/rerere).  A missing entry throws (none); an entry
whose preimage or postimage is null or empty is skipped; otherwise the pair of
texts is stored under the hash (the JSON plus base64 encoding of the blob is
abstracted to the pair itself). -/
def storeRerereRef (cache : RerereCache)
    (shared : List (String × (String × String))) (hash : String) :
    Option (List (String × (String × String))) :=
  match alistLookup cache hash with
  | none => none
  | some e =>
    if jsFalsyStr e.preimage || jsFalsyStr e.postimage then some shared
    else some (jsMapSet shared hash (e.preimage.getD "", e.postimage.getD ""))

/-- Promotion step of syncContinue (src/commands/sync.ts lines 104-113):
capture the new entries and store each as a shared ref.  The throwing branch
of storeRerereRef is unreachable here because every captured hash is listed
from the cache; it is modeled as a skip. -/
def promoteNewEntries (previousHashes : List String) (cache : RerereCache)
    (shared : List (String × (String × String))) :
    List (String × (String × String)) :=
  (captureNewRerereEntries previousHashes cache).foldl
    (fun s h => (storeRerereRef cache s h).getD s) shared

/-! Sync engine apply loop (src/commands/sync.ts).  External git effects are
abstracted: applyOk names whether the three-way apply of a patch exited 0 or
rerere auto-resolution cleared every conflict marker, msgOf the commit message
parsed from the stored body, localHashes the rr-cache listing taken at block
time.  The trace of committed patch names is recorded explicitly. -/

/-- SyncState persisted by sync/syncContinue. -/
structure SyncState where
  currentPatch : String
  remainingPatches : List String
  commitMessage : String
  originalBranch : String
  applied : Nat
  rerereHashesBeforeSync : List String
  userRerereCachePath : Option String
deriving DecidableEq, Repr

/-- Result of the apply loop: completed with a count and commit trace, or
blocked with a persisted SyncState and the trace committed so far. -/
inductive SyncOutcome where
  | completed (applied : Nat) (committed : List String)
  | blocked (state : SyncState) (committed : List String)
deriving DecidableEq, Repr

/-- The apply loop shared by sync and syncContinue: walk the pending patches;
on success commit and continue, on failure persist a SyncState whose remainder
is the slice of the base list after the failing patch (indexOf + 1). -/
def syncApplyLoop (applyOk : String → Bool) (msgOf : String → String)
    (localHashes : List String) (originalBranch : String)
    (cachePath : Option String) (base : List String) :
    List String → Nat → List String → SyncOutcome
  | [], applied, committed => .completed applied committed
  | p :: rest, applied, committed =>
    if applyOk p then
      syncApplyLoop applyOk msgOf localHashes originalBranch cachePath base
        rest (applied + 1) (committed ++ [p])
    else
      .blocked
        { currentPatch := p
        , remainingPatches := base.drop (base.indexOf p + 1)
        , commitMessage := msgOf p
        , originalBranch := originalBranch
        , applied := applied
        , rerereHashesBeforeSync := localHashes
        , userRerereCachePath := cachePath }
        committed

/-- Apply phase of sync: the loop over the full sorted patch list. -/
def syncRun (applyOk : String → Bool) (msgOf : String → String)
    (localHashes : List String) (originalBranch : String)
    (cachePath : Option String) (sortedPatches : List String) : SyncOutcome :=
  syncApplyLoop applyOk msgOf localHashes originalBranch cachePath
    sortedPatches sortedPatches 0 []

/-- syncContinue from src/commands/sync.ts: commit the blocked patch (one more
applied, first entry of the trace), then run the loop over exactly the
persisted remainder. -/
def syncContinueRun (applyOk : String → Bool) (msgOf : String → String)
    (localHashes : List String) (state : SyncState) : SyncOutcome :=
  syncApplyLoop applyOk msgOf localHashes state.originalBranch
    state.userRerereCachePath state.remainingPatches state.remainingPatches
    (state.applied + 1) [state.currentPatch]

/-! Rerere-cache lifecycle of a sync run (src/commands/sync.ts lines
205-389).  The cache is abstracted to a list of entry ids; the dependency
sort and the per-patch loop are abstracted to whether every active patch
applies (the sort-failure paths exit without touching the cache further and
are outside this model). -/

/-- Final cache situation of a sync run: contents of .git/rr-cache when the
process ends, whether restoreUserRerereCache ran, and whether the run blocked
on a conflict. -/
structure CacheOutcome where
  rrCache : Option (List String)
  restoredUser : Bool
  blocked : Bool
deriving DecidableEq, Repr

/-- Cache-affecting effects of sync in source order: saveUserRerereCache,
clearRerereCache, fetchRerereRefs + restoreRerereFromRefs (which leaves the
cache absent when no shared entry exists), then the two early returns, then
the apply loop, then restoreUserRerereCache only after the loop exhausts. -/
def syncCacheRun (userCache : Option (List String)) (shared : List String)
    (allPatchNames : List String) (statusOf : String → Option PatchStatus)
    (applyOk : String → Bool) : CacheOutcome :=
  let savedTemp := userCache
  let rr1 : Option (List String) := if shared.isEmpty then none else some shared
  if allPatchNames.isEmpty then
    { rrCache := rr1, restoredUser := false, blocked := false }
  else
    let active := allPatchNames.filter (fun p =>
      match statusOf p with
      | some .merged => false
      | some .abandoned => false
      | _ => true)
    if active.isEmpty then
      { rrCache := rr1, restoredUser := false, blocked := false }
    else if active.all applyOk then
      { rrCache := savedTemp, restoredUser := true, blocked := false }
    else
      { rrCache := rr1, restoredUser := false, blocked := true }

/-! addDependency (src/commands/deps.ts).  The persisted manifest is the
value threaded through; saveConfig is the successful return of an updated
manifest, every other path returns the stored manifest untouched.  The
in-memory revert of the source only affects the process-local object and is
not observable in the persisted configuration modeled here. -/

/-- Update one patch record of the manifest. -/
def manifestSet (m : Manifest) (patch : String) (md : PatchMetadata) :
    Manifest :=
  fun q => if q = patch then some md else m q

/-- Trial manifest of addDependency: the dependency appended to the current
list of the patch (the in-memory mutation before validation). -/
def addDependencyTrial (stored : Manifest) (patch dependsOn : String) :
    Manifest :=
  let md := (stored patch).getD {}
  manifestSet stored patch
    { md with dependencies := some (md.dependencies.getD [] ++ [dependsOn]) }

/-- addDependency from src/commands/deps.ts: guards, duplicate-edge early
return (no error, nothing saved), trial mutation, full re-sort as validation,
save only on success.  The returned manifest is the persisted one; the second
component is the error, none meaning no error was thrown. -/
def addDependency (storedPatches : List String) (stored : Manifest)
    (patch dependsOn : String) : Manifest × Option String :=
  if !(storedPatches.contains patch) then
    (stored, some "Patch not found")
  else if !(storedPatches.contains dependsOn) then
    (stored, some "Dependency not found")
  else if patch == dependsOn then
    (stored, some "A patch cannot depend on itself")
  else if (((stored patch).getD {}).dependencies.getD []).contains dependsOn then
    (stored, none)
  else
    match topologicalSort (buildDependencyGraph storedPatches
        (addDependencyTrial stored patch dependsOn)) with
    | .error _ => (stored, some "Adding this dependency would create a cycle")
    | .ok _ => (addDependencyTrial stored patch dependsOn, none)

/-! Specification-side views of the graph data used by the proofs. -/

/-- Dependency list recorded for a node in an edge list. -/
def edgeDeps (edges : List (String × List String)) (p : String) : List String :=
  (alistLookup edges p).getD []

/-- Canonical contents of the reverseDeps entry of a node c: every patch p,
in node order, repeated once per occurrence of c in its dependency list. -/
def revOf (nodes : List String) (deps : String → List String) (c : String) :
    List String :=
  (nodes.map (fun p => List.replicate ((deps p).count c) p)).flatten

/-- Running in-degree of a node after the nodes of R have been emitted: the
number of dependency occurrences not yet emitted. -/
def degOfInt (deps : String → List String) (R : List String) (p : String) :
    Int :=
  (((deps p).filter (fun d => !(R.contains d))).length : Int)

/-- An emitted order in which every dependency of every emitted node occurs
strictly earlier. -/
def TopoOrdered (deps : String → List String) (R : List String) : Prop :=
  ∀ l p r2, R = l ++ p :: r2 → ∀ d ∈ deps p, d ∈ l

/-! Basic association-list lemmas. -/

theorem alistLookup_nil {α : Type} (k : String) :
    alistLookup ([] : List (String × α)) k = none := rfl

theorem alistLookup_cons {α : Type} (e : String × α) (m : List (String × α))
    (k : String) :
    alistLookup (e :: m) k = if e.1 = k then some e.2 else alistLookup m k := by
  by_cases h : e.1 = k
  · rw [alistLookup,
      @List.find?_cons_of_pos _ (fun e => e.1 == k) e m (by simpa using h), if_pos h]
    rfl
  · rw [alistLookup,
      @List.find?_cons_of_neg _ (fun e => e.1 == k) e m (by simpa using h), if_neg h]
    rfl

theorem alistLookup_map_update_ne {α : Type} (m : List (String × α))
    (k k' : String) (v : α) (hk : k' ≠ k) :
    alistLookup (m.map (fun e => if e.1 == k then (k, v) else e)) k'
      = alistLookup m k' := by
  induction m with
  | nil => rfl
  | cons e m ih =>
    by_cases he : e.1 = k
    · have heb : (e.1 == k) = true := by simpa using he
      have h1 : ¬ k = k' := fun hh => hk hh.symm
      have h2 : ¬ e.1 = k' := fun hh => hk (hh ▸ he)
      simp only [List.map_cons, heb, if_true, alistLookup_cons, h1, h2, if_false]
      exact ih
    · have heb : (e.1 == k) = false := by simpa using he
      simp only [List.map_cons, heb, Bool.false_eq_true, if_false, alistLookup_cons]
      rw [ih]

theorem alistLookup_map_update_self {α : Type} (m : List (String × α))
    (k : String) (v : α) (h : m.any (fun e => e.1 == k) = true) :
    alistLookup (m.map (fun e => if e.1 == k then (k, v) else e)) k = some v := by
  induction m with
  | nil => simp at h
  | cons e m ih =>
    by_cases he : e.1 = k
    · have heb : (e.1 == k) = true := by simpa using he
      simp only [List.map_cons, heb, if_true, alistLookup_cons]
    · have heb : (e.1 == k) = false := by simpa using he
      simp only [List.map_cons, heb, Bool.false_eq_true, if_false, alistLookup_cons]
      rw [if_neg he]
      exact ih (by simpa [heb] using h)

theorem alistLookup_append {α : Type} (m₁ m₂ : List (String × α)) (k : String) :
    alistLookup (m₁ ++ m₂) k = (alistLookup m₁ k).or (alistLookup m₂ k) := by
  induction m₁ with
  | nil => simp [alistLookup_nil]
  | cons e m ih =>
    rw [List.cons_append, alistLookup_cons, alistLookup_cons]
    by_cases he : e.1 = k
    · rw [if_pos he, if_pos he]
      rfl
    · rw [if_neg he, if_neg he, ih]

theorem alistLookup_eq_none_of_not_any {α : Type} (m : List (String × α))
    (k : String) (h : m.any (fun e => e.1 == k) = false) :
    alistLookup m k = none := by
  induction m with
  | nil => rfl
  | cons e m ih =>
    simp only [List.any_cons, Bool.or_eq_false_iff] at h
    rw [alistLookup_cons, if_neg (by simpa using h.1)]
    exact ih h.2

theorem alistLookup_jsMapSet {α : Type} (m : List (String × α))
    (k : String) (v : α) (k' : String) :
    alistLookup (jsMapSet m k v) k'
      = if k' = k then some v else alistLookup m k' := by
  unfold jsMapSet
  by_cases hany : m.any (fun e => e.1 == k) = true
  · rw [if_pos hany]
    by_cases hk : k' = k
    · rw [if_pos hk, hk, alistLookup_map_update_self m k v hany]
    · rw [if_neg hk, alistLookup_map_update_ne m k k' v hk]
  · rw [if_neg hany, alistLookup_append]
    by_cases hk : k' = k
    · rw [if_pos hk, hk, alistLookup_eq_none_of_not_any m k (Bool.eq_false_iff.mpr hany)]
      rw [alistLookup_cons, alistLookup_nil, if_pos rfl]
      rfl
    · rw [if_neg hk, alistLookup_cons, alistLookup_nil,
        if_neg (fun hh : k = k' => hk hh.symm)]
      exact Option.or_none

theorem alistLookup_mem {α : Type} {m : List (String × α)} {k : String} {v : α}
    (h : alistLookup m k = some v) : (k, v) ∈ m := by
  unfold alistLookup at h
  cases hf : List.find? (fun e => e.1 == k) m with
  | none => rw [hf] at h; simp at h
  | some e =>
    rw [hf] at h
    have hv : e.2 = v := by simpa using h
    have hm := List.mem_of_find?_eq_some hf
    have hp := List.find?_some hf
    have hk1 : e.1 = k := by simpa using hp
    have he : e = (k, v) := by
      cases e
      simp_all
    rw [← he]
    exact hm

theorem alistLookup_canon {α : Type} (l : List String) (f : String → α)
    (k : String) :
    alistLookup (l.map (fun p => (p, f p))) k
      = if k ∈ l then some (f k) else none := by
  induction l with
  | nil => simp [alistLookup_nil]
  | cons p l ih =>
    rw [List.map_cons, alistLookup_cons]
    by_cases hp : p = k
    · subst hp
      simp
    · rw [if_neg hp, ih]
      by_cases hm : k ∈ l
      · rw [if_pos hm, if_pos (by simp [hm])]
      · rw [if_neg hm, if_neg (by simp [hm, Ne.symm hp])]

theorem jsMapSet_canon {α : Type} (l : List String) (f : String → α)
    (k : String) (v : α) (hk : k ∈ l) :
    jsMapSet (l.map (fun p => (p, f p))) k v
      = l.map (fun p => (p, if p = k then v else f p)) := by
  have hany : (l.map (fun p => (p, f p))).any (fun e => e.1 == k) = true := by
    rw [List.any_eq_true]
    exact ⟨(k, f k), List.mem_map_of_mem _ hk, by simp⟩
  rw [jsMapSet, if_pos hany, List.map_map]
  apply List.map_congr_left
  intro p _
  by_cases hp : p = k
  · subst hp
    simp
  · simp [hp]

theorem foldl_jsSetInsert (l acc : List String) (h : (acc ++ l).Nodup) :
    l.foldl jsSetInsert acc = acc ++ l := by
  induction l generalizing acc with
  | nil => simp
  | cons x l ih =>
    have hx : ¬ acc.contains x = true := by
      intro hc
      have hxm : x ∈ acc := by simpa using hc
      have := List.disjoint_of_nodup_append h
      exact this hxm (by simp)
    rw [List.foldl_cons, jsSetInsert, if_neg hx]
    have hperm : (acc ++ x :: l).Perm ((acc ++ [x]) ++ l) := by
      simp only [List.append_assoc, List.singleton_append]
      exact List.Perm.refl _
    rw [ih (acc ++ [x]) (by simpa using h)]
    simp

theorem foldl_jsMapSet_fresh {α : Type} (f : String → α) (l : List String)
    (acc : List (String × α)) (h : (acc.map (fun e => e.1) ++ l).Nodup) :
    l.foldl (fun m p => jsMapSet m p (f p)) acc
      = acc ++ l.map (fun p => (p, f p)) := by
  induction l generalizing acc with
  | nil => simp
  | cons x l ih =>
    have hx : acc.any (fun e => e.1 == x) = false := by
      rw [Bool.eq_false_iff]
      intro hc
      rw [List.any_eq_true] at hc
      obtain ⟨e, hem, hex⟩ := hc
      have hex2 : e.1 = x := by simpa using hex
      have hxm : x ∈ acc.map (fun e => e.1) := hex2 ▸ List.mem_map_of_mem _ hem
      exact (List.disjoint_of_nodup_append h) hxm (by simp)
    rw [List.foldl_cons, jsMapSet, if_neg (by simp [hx])]
    rw [ih (acc ++ [(x, f x)]) (by
      simp only [List.map_append, List.map_cons, List.map_nil]
      have : (acc.map (fun e => e.1) ++ [x] ++ l).Nodup := by
        have hp : (acc.map (fun e => e.1) ++ x :: l).Perm
            ((acc.map (fun e => e.1) ++ [x]) ++ l) := by
          simp [List.append_assoc]
        exact hp.nodup h
      simpa using this)]
    simp

theorem buildDependencyGraph_eq (l : List String) (manifest : Manifest)
    (h : l.Nodup) :
    buildDependencyGraph l manifest
      = { nodes := l, edges := l.map (fun p => (p, depsOf manifest p)) } := by
  unfold buildDependencyGraph
  congr 1
  · exact foldl_jsSetInsert l [] (by simpa using h)
  · simpa using foldl_jsMapSet_fresh (depsOf manifest) l [] (by simpa using h)

/-! Claim C3: read after store on the patch store. -/

/-- C3 counterexample: storePatchRef writes the content verbatim to the blob
(stdin is not trimmed) but readPatchRef goes through exec, which trims the
stdout of git cat-file, so a content with a trailing newline does not come
back unchanged: the round trip is not the identity. -/
theorem storePatchRef_readPatchRef_counterexample :
    readPatchRef
      (storePatchRef id { objects := [], refs := [] } "0001-x.patch" "hello\n")
      "0001-x.patch" = some "hello" ∧
    ("hello" : String) ≠ "hello\n" := by
  constructor
  · rfl
  · decide

/-- C3 amended: for every patch name and content, storing the content under
the name and then reading that name returns the trimmed content (exec trims
the git cat-file output); the round trip is the identity exactly on contents
without leading or trailing whitespace.  The git substrate is content
addressed: the object-id function is an arbitrary injective function and
every preexisting object is stored under the id of its own content. -/
theorem storePatchRef_readPatchRef_amended
    (hashFn : String → String) (st : GitRefStore) (name content : String)
    (hinj : Function.Injective hashFn)
    (hwf : ∀ e ∈ st.objects, e.1 = hashFn e.2) :
    readPatchRef (storePatchRef hashFn st name content) name
      = some (jsTrim content) := by
  have hobj : alistLookup (writeObject hashFn st.objects content)
      (hashFn content) = some content := by
    unfold writeObject
    by_cases hs : (alistLookup st.objects (hashFn content)).isSome = true
    · rw [if_pos hs]
      obtain ⟨c0, hc0⟩ := Option.isSome_iff_exists.mp hs
      have hmem := alistLookup_mem hc0
      have heq : hashFn content = hashFn c0 := hwf _ hmem
      have hcc : content = c0 := hinj heq
      rw [hc0, ← hcc]
    · rw [if_neg hs, alistLookup_append]
      have hnone : alistLookup st.objects (hashFn content) = none := by
        cases hv : alistLookup st.objects (hashFn content) with
        | none => rfl
        | some c => rw [hv] at hs; simp at hs
      rw [hnone, Option.none_or, alistLookup_cons, if_pos rfl]
  unfold readPatchRef storePatchRef
  simp only
  rw [alistLookup_jsMapSet, if_pos rfl]
  show (alistLookup (writeObject hashFn st.objects content)
    (hashFn content)).map jsTrim = some (jsTrim content)
  rw [hobj]
  rfl

/-- Witness for C3: a concrete store and a concrete injective id function;
the stored content carries a trailing newline and reads back trimmed. -/
theorem storePatchRef_readPatchRef_amended_witness :
    readPatchRef
      (storePatchRef id { objects := [], refs := [] }
        "0001-x.patch" "hello\n")
      "0001-x.patch" = some (jsTrim "hello\n") :=
  storePatchRef_readPatchRef_amended id { objects := [], refs := [] }
    "0001-x.patch" "hello\n" (fun _ _ h => h) (by simp)

/-! Claim C9: next patch number. -/

/-- C9 counterexample: a nonempty store whose only name has no numeric
leading segment still yields 1, refuting that 1 is returned exactly when the
store is empty (and that every stored name contributes its parsed number). -/
theorem getNextPatchNumber_counterexample :
    getNextPatchNumber ["foo.patch"] = 1 ∧
      (["foo.patch"] : List String) ≠ [] := by
  constructor
  · decide
  · simp

theorem foldl_max_mem (xs : List Int) (x : Int) :
    xs.foldl max x = x ∨ xs.foldl max x ∈ xs := by
  induction xs generalizing x with
  | nil => exact Or.inl rfl
  | cons y xs ih =>
    rw [List.foldl_cons]
    rcases ih (max x y) with h | h
    · rcases max_choice x y with hm | hm
      · exact Or.inl (by rw [h, hm])
      · exact Or.inr (by rw [h, hm]; simp)
    · exact Or.inr (by simp [h])

theorem le_foldl_max (xs : List Int) (x : Int) :
    x ≤ xs.foldl max x ∧ ∀ n ∈ xs, n ≤ xs.foldl max x := by
  induction xs generalizing x with
  | nil => exact ⟨le_refl x, by simp⟩
  | cons y xs ih =>
    rw [List.foldl_cons]
    refine ⟨le_trans (le_max_left x y) (ih (max x y)).1, ?_⟩
    intro n hn
    rcases List.mem_cons.mp hn with rfl | hn
    · exact le_trans (le_max_right x n) (ih (max x n)).1
    · exact (ih (max x y)).2 n hn

/-- C9 amended: getNextPatchNumber returns one plus the maximum of the
numbers parsed from stored names ending in .patch whose leading segment
before the first dash parses as a number, and returns 1 when no stored name
yields a number (in particular when the store is empty). -/
theorem getNextPatchNumber_amended (patches : List String) :
    (patchNumbers patches = [] ∧ getNextPatchNumber patches = 1) ∨
    (∃ m, m ∈ patchNumbers patches ∧ (∀ n ∈ patchNumbers patches, n ≤ m) ∧
      getNextPatchNumber patches = m + 1) := by
  cases hp : patchNumbers patches with
  | nil => exact Or.inl ⟨rfl, by rw [getNextPatchNumber, hp]⟩
  | cons x xs =>
    refine Or.inr ⟨xs.foldl max x, ?_, ?_, ?_⟩
    · rcases foldl_max_mem xs x with h | h
      · rw [h]; simp
      · simp [h]
    · intro n hn
      rcases List.mem_cons.mp hn with rfl | hn
      · exact (le_foldl_max xs n).1
      · exact (le_foldl_max xs x).2 n hn
    · rw [getNextPatchNumber, hp]

/-! Claim C4: the sync early returns skip restoring the operator cache. -/

/-- C4 evaluation at the failing inputs: with an empty patch store, and with
a store whose only patch is merged, sync terminates without blocking yet
restoreUserRerereCache never runs and the operator cache is not back in
place. -/
theorem syncCacheRun_early_return_skips_restore :
    (syncCacheRun (some ["userEntry"]) [] [] (fun _ => none) (fun _ => true))
      = { rrCache := none, restoredUser := false, blocked := false } ∧
    (syncCacheRun (some ["userEntry"]) ["shared1"] ["p1"]
        (fun _ => some PatchStatus.merged) (fun _ => true))
      = { rrCache := some ["shared1"], restoredUser := false, blocked := false } := by
  constructor <;> rfl

/-! Claim C8: only fully resolved entries are promoted. -/

theorem promote_fold_changes_only_resolved
    (cache : RerereCache) (h : String) :
    ∀ (hs : List String) (s : List (String × (String × String))),
      alistLookup (hs.foldl (fun s h2 => (storeRerereRef cache s h2).getD s) s) h
        ≠ alistLookup s h →
      ∃ e, alistLookup cache h = some e ∧
        ∃ p q, e.preimage = some p ∧ p ≠ "" ∧ e.postimage = some q ∧ q ≠ "" := by
  intro hs
  induction hs with
  | nil => intro s hne; exact absurd rfl hne
  | cons x hs ih =>
    intro s hne
    rw [List.foldl_cons] at hne
    by_cases hstep :
        alistLookup ((storeRerereRef cache s x).getD s) h = alistLookup s h
    · exact ih _ (fun hh => hne (hh.trans hstep))
    · cases hcx : alistLookup cache x with
      | none =>
        simp only [storeRerereRef, hcx, Option.getD_none] at hstep
        exact absurd trivial hstep
      | some e =>
        by_cases hfal : (jsFalsyStr e.preimage || jsFalsyStr e.postimage) = true
        · simp only [storeRerereRef, hcx, if_pos hfal, Option.getD_some] at hstep
          exact absurd trivial hstep
        · simp only [storeRerereRef, hcx, if_neg hfal, Option.getD_some] at hstep
          rw [alistLookup_jsMapSet] at hstep
          by_cases hx : h = x
          · subst hx
            rw [Bool.or_eq_true, not_or] at hfal
            refine ⟨e, hcx, ?_⟩
            have hpre : e.preimage.getD "" ≠ "" := by
              intro hc
              exact hfal.1 (by simp [jsFalsyStr, hc])
            have hpost : e.postimage.getD "" ≠ "" := by
              intro hc
              exact hfal.2 (by simp [jsFalsyStr, hc])
            cases hpe : e.preimage with
            | none => rw [hpe] at hpre; simp at hpre
            | some p =>
              cases hqe : e.postimage with
              | none => rw [hqe] at hpost; simp at hpost
              | some q =>
                refine ⟨p, q, rfl, ?_, rfl, ?_⟩
                · rw [hpe] at hpre; simpa using hpre
                · rw [hqe] at hpost; simpa using hpost
          · rw [if_neg hx] at hstep
            exact absurd rfl hstep

/-- C8: after an apply attempt, promoting the new resolution-cache entries
changes the shared namespace at a hash only when the cache entry there has
both a nonempty pre-conflict text and a nonempty resolved text; an entry
lacking either text is never promoted. -/
theorem promoteNewEntries_only_fully_resolved
    (previousHashes : List String) (cache : RerereCache)
    (shared : List (String × (String × String))) (h : String)
    (hch : alistLookup (promoteNewEntries previousHashes cache shared) h
      ≠ alistLookup shared h) :
    ∃ e, alistLookup cache h = some e ∧
      ∃ p q, e.preimage = some p ∧ p ≠ "" ∧ e.postimage = some q ∧ q ≠ "" :=
  promote_fold_changes_only_resolved cache h
    (captureNewRerereEntries previousHashes cache) shared hch

/-- Witness for C8: a fresh fully-resolved entry is promoted and does carry
both texts. -/
theorem promoteNewEntries_only_fully_resolved_witness :
    ∃ e, alistLookup
        ([("h1", { preimage := some "a", postimage := some "b" })] : RerereCache)
        "h1" = some e ∧
      ∃ p q, e.preimage = some p ∧ p ≠ "" ∧ e.postimage = some q ∧ q ≠ "" :=
  promoteNewEntries_only_fully_resolved []
    [("h1", { preimage := some "a", postimage := some "b" })] [] "h1"
    (by decide)

/-! Claim C2: blocked state and resume of the apply loop. -/

theorem indexOf_append_cons (l1 l2 : List String) (p : String)
    (h : (l1 ++ p :: l2).Nodup) :
    (l1 ++ p :: l2).indexOf p = l1.length := by
  induction l1 with
  | nil => simp [List.indexOf_cons_self]
  | cons a l1 ih =>
    have ha : a ≠ p := by
      intro hh
      subst hh
      have := (List.nodup_cons.mp h).1
      simp at this
    rw [List.cons_append, List.indexOf_cons_ne _ ha, ih (List.nodup_cons.mp h).2]
    rfl

theorem drop_length_append_cons (l1 l2 : List String) (p : String) :
    (l1 ++ p :: l2).drop (l1.length + 1) = l2 := by
  have : l1 ++ p :: l2 = (l1 ++ [p]) ++ l2 := by simp
  rw [this, show l1.length + 1 = (l1 ++ [p]).length by simp, List.drop_left]

theorem syncApplyLoop_completed (ok : String → Bool) (msg : String → String)
    (lh : List String) (ob : String) (cp : Option String) (base : List String) :
    ∀ pending applied committed, (∀ q ∈ pending, ok q = true) →
      syncApplyLoop ok msg lh ob cp base pending applied committed
        = .completed (applied + pending.length) (committed ++ pending) := by
  intro pending
  induction pending with
  | nil => intro applied committed _; simp [syncApplyLoop]
  | cons p rest ih =>
    intro applied committed h
    rw [syncApplyLoop, if_pos (h p (by simp))]
    rw [ih (applied + 1) (committed ++ [p]) (fun q hq => h q (by simp [hq]))]
    congr 1
    · simp
      omega
    · simp

theorem syncApplyLoop_blocked_characterize (ok : String → Bool)
    (msg : String → String) (lh : List String) (ob : String)
    (cp : Option String) (base : List String) (hnd : base.Nodup) :
    ∀ pending applied committed st ctrace,
      (∃ done, base = done ++ pending) →
      syncApplyLoop ok msg lh ob cp base pending applied committed
        = .blocked st ctrace →
      ∃ mid, pending = mid ++ st.currentPatch :: st.remainingPatches ∧
        (∀ q ∈ mid, ok q = true) ∧ ok st.currentPatch = false ∧
        ctrace = committed ++ mid ∧ st.applied = applied + mid.length ∧
        st.commitMessage = msg st.currentPatch ∧ st.originalBranch = ob ∧
        st.rerereHashesBeforeSync = lh ∧ st.userRerereCachePath = cp := by
  intro pending
  induction pending with
  | nil =>
    intro applied committed st ctrace _ heq
    rw [syncApplyLoop] at heq
    exact absurd heq (by simp)
  | cons p rest ih =>
    intro applied committed st ctrace hpre heq
    obtain ⟨done, hdone⟩ := hpre
    by_cases hp : ok p = true
    · rw [syncApplyLoop, if_pos hp] at heq
      obtain ⟨mid, h1, h2, h3, h4, h5, h6, h7, h8, h9⟩ :=
        ih (applied + 1) (committed ++ [p]) st ctrace
          ⟨done ++ [p], by simp [hdone]⟩ heq
      refine ⟨p :: mid, by simp [h1], ?_, h3, by simp [h4], by simp [h5]; omega,
        h6, h7, h8, h9⟩
      intro q hq
      rcases List.mem_cons.mp hq with rfl | hq
      · exact hp
      · exact h2 q hq
    · rw [syncApplyLoop, if_neg hp] at heq
      have hidx : base.indexOf p = done.length := by
        rw [hdone]
        exact indexOf_append_cons done rest p (hdone ▸ hnd)
      have hdrop : base.drop (base.indexOf p + 1) = rest := by
        rw [hidx, hdone]
        exact drop_length_append_cons done rest p
      rw [SyncOutcome.blocked.injEq] at heq
      obtain ⟨hst, hctr⟩ := heq
      refine ⟨[], ?_, by simp, ?_, by simp [hctr.symm], by simp [hst.symm],
        by simp [hst.symm], by simp [hst.symm], by simp [hst.symm],
        by simp [hst.symm]⟩
      · rw [← hst]
        simpa using hdrop.symm
      · rw [← hst]
        simpa using hp

/-- C2: when the sync apply loop blocks, the persisted SyncState names the
failing patch together with exactly the not-yet-attempted suffix of the
sorted list, every earlier patch was committed, and a resume run commits the
blocked patch and then walks exactly the persisted remainder rather than the
full list. -/
theorem sync_blocked_state_and_resume (ok ok2 : String → Bool)
    (msg msg2 : String → String) (lh lh2 : List String) (ob : String)
    (cp : Option String) (ps : List String) (st : SyncState)
    (committed : List String) (hnd : ps.Nodup)
    (hb : syncRun ok msg lh ob cp ps = .blocked st committed)
    (hall : ∀ q ∈ st.remainingPatches, ok2 q = true) :
    ps = committed ++ st.currentPatch :: st.remainingPatches ∧
    (∀ q ∈ committed, ok q = true) ∧ ok st.currentPatch = false ∧
    syncContinueRun ok2 msg2 lh2 st
      = .completed (st.applied + 1 + st.remainingPatches.length)
          (st.currentPatch :: st.remainingPatches) := by
  unfold syncRun at hb
  obtain ⟨mid, h1, h2, h3, h4, h5, _, _, _, _⟩ :=
    syncApplyLoop_blocked_characterize ok msg lh ob cp ps hnd ps 0 [] st
      committed ⟨[], by simp⟩ hb
  have hmid : committed = mid := by simpa using h4
  refine ⟨by rw [hmid, ← h1], by rw [hmid]; exact h2, h3, ?_⟩
  unfold syncContinueRun
  rw [syncApplyLoop_completed ok2 msg2 lh2 st.originalBranch
    st.userRerereCachePath st.remainingPatches st.remainingPatches
    (st.applied + 1) [st.currentPatch] hall]
  simp

/-- Witness for C2: three patches, the second fails; the persisted state
resumes with exactly the third. -/
theorem sync_blocked_state_and_resume_witness :
    syncContinueRun (fun _ => true) (fun _ => "m") []
      { currentPatch := "02-b", remainingPatches := ["03-c"],
        commitMessage := "m", originalBranch := "main", applied := 1,
        rerereHashesBeforeSync := [], userRerereCachePath := none }
      = .completed 3 ["02-b", "03-c"] := by
  have h := sync_blocked_state_and_resume (fun s => !(s == "02-b"))
    (fun _ => true) (fun _ => "m") (fun _ => "m") [] [] "main" none
    ["01-a", "02-b", "03-c"]
    { currentPatch := "02-b", remainingPatches := ["03-c"],
      commitMessage := "m", originalBranch := "main", applied := 1,
      rerereHashesBeforeSync := [], userRerereCachePath := none }
    ["01-a"] (by decide) (by decide) (by decide)
  exact h.2.2.2

/-! Claim C7: parse failure is exactly a missing diff marker, and the derived
message matches the specified derivation. -/

/-- C7: parsePatch fails exactly when no line of the body starts with the
unified-diff marker, and on success the derived commit message is the one the
claim describes (non-empty body lines between header block and diff when
present, else the stripped Subject line, else the literal fallback). -/
theorem parsePatch_spec (patchText : String) :
    ((∃ e, parsePatch patchText = .error e) ↔
      ∀ line ∈ jsSplit patchText '\n',
        jsStartsWith line "diff --git " = false) ∧
    (∀ r, parsePatch patchText = .ok r →
      r.message = claimDerivedMessage patchText) := by
  cases hidx : (jsSplit patchText '\n').findIdx?
      (fun line => jsStartsWith line "diff --git ") with
  | none =>
    constructor
    · constructor
      · intro _
        exact List.findIdx?_eq_none_iff.mp hidx
      · intro _
        exact ⟨"Invalid patch: missing diff content", by
          simp only [parsePatch, hidx]⟩
    · intro r heq
      simp only [parsePatch, hidx] at heq
      exact Except.noConfusion heq
  | some diffStart =>
    have hlt : diffStart < (jsSplit patchText '\n').length :=
      (List.findIdx?_eq_some_iff_findIdx_eq.mp hidx).1
    constructor
    · constructor
      · intro he
        obtain ⟨e, he⟩ := he
        simp only [parsePatch, hidx] at he
        exact Except.noConfusion he
      · intro hall
        have hnone := List.findIdx?_eq_none_iff.mpr hall
        rw [hnone] at hidx
        exact absurd hidx (by simp)
    · intro r heq
      simp only [parsePatch, hidx] at heq
      rw [Except.ok.injEq] at heq
      rw [← heq]
      dsimp only
      simp only [claimDerivedMessage, hidx, Option.getD_some]
      by_cases hM : jsTrim (joinLines
          (headerMessageLines (jsSplit patchText '\n') diffStart)) = ""
      · simp [hM]
      · simp [hM]

/-- Witness for C7: a concrete stored body whose derived message is the body
line between header and diff. -/
theorem parsePatch_spec_witness :
    ({ message := "body line", diff := "diff --git a/f b/f\nrest",
        subject := "body line" } : ParsedPatch).message
      = claimDerivedMessage
          "From x\nDate: y\nSubject: [PATCH] add feature\n\nbody line\n\ndiff --git a/f b/f\nrest" :=
  (parsePatch_spec
      "From x\nDate: y\nSubject: [PATCH] add feature\n\nbody line\n\ndiff --git a/f b/f\nrest").2
    { message := "body line", diff := "diff --git a/f b/f\nrest",
      subject := "body line" } (by rfl)

/-! Order properties of the string comparison used by the sort. -/

theorem charListLe_total : ∀ as bs : List Char,
    charListLe as bs = true ∨ charListLe bs as = true := by
  intro as
  induction as with
  | nil => intro bs; exact Or.inl rfl
  | cons a as ih =>
    intro bs
    cases bs with
    | nil => exact Or.inr rfl
    | cons b bs =>
      by_cases hab : a < b
      · exact Or.inl (by simp [charListLe, hab])
      · by_cases heq : a = b
        · subst heq
          rcases ih bs with h | h
          · exact Or.inl (by simp [charListLe, h])
          · exact Or.inr (by simp [charListLe, h])
        · have hba : b < a :=
            lt_of_le_of_ne (le_of_not_lt hab) (Ne.symm heq)
          exact Or.inr (by simp [charListLe, hba])

theorem charListLe_trans : ∀ as bs cs : List Char,
    charListLe as bs = true → charListLe bs cs = true →
    charListLe as cs = true := by
  intro as
  induction as with
  | nil => intro bs cs _ _; rfl
  | cons a as ih =>
    intro bs cs h1 h2
    cases bs with
    | nil => simp [charListLe] at h1
    | cons b bs =>
      cases cs with
      | nil => simp [charListLe] at h2
      | cons c cs =>
        by_cases hab : a < b
        · by_cases hbc : b < c
          · simp [charListLe, lt_trans hab hbc]
          · by_cases hbc2 : b = c
            · subst hbc2
              simp [charListLe, hab]
            · simp [charListLe, hbc, hbc2] at h2
        · by_cases hab2 : a = b
          · subst hab2
            have h1r : charListLe as bs = true := by
              simpa [charListLe, lt_irrefl] using h1
            by_cases hbc : a < c
            · simp [charListLe, hbc]
            · by_cases hbc2 : a = c
              · subst hbc2
                have h2r : charListLe bs cs = true := by
                  simpa [charListLe, lt_irrefl] using h2
                simp [charListLe, lt_irrefl, ih bs cs h1r h2r]
              · simp [charListLe, hbc, hbc2] at h2
          · simp [charListLe, hab, hab2] at h1

theorem charListLe_antisymm : ∀ as bs : List Char,
    charListLe as bs = true → charListLe bs as = true → as = bs := by
  intro as
  induction as with
  | nil =>
    intro bs h1 h2
    cases bs with
    | nil => rfl
    | cons b bs => simp [charListLe] at h2
  | cons a as ih =>
    intro bs h1 h2
    cases bs with
    | nil => simp [charListLe] at h1
    | cons b bs =>
      by_cases hab : a < b
      · simp [charListLe, lt_asymm hab, (ne_of_gt hab)] at h2
      · by_cases hab2 : a = b
        · subst hab2
          have h1r : charListLe as bs = true := by
            simpa [charListLe, lt_irrefl] using h1
          have h2r : charListLe bs as = true := by
            simpa [charListLe, lt_irrefl] using h2
          rw [ih bs h1r h2r]
        · simp [charListLe, hab, hab2] at h1

theorem strLe_total (a b : String) : strLe a b = true ∨ strLe b a = true :=
  charListLe_total a.toList b.toList

theorem strLe_trans {a b c : String} (h1 : strLe a b = true)
    (h2 : strLe b c = true) : strLe a c = true :=
  charListLe_trans a.toList b.toList c.toList h1 h2

theorem strLe_antisymm {a b : String} (h1 : strLe a b = true)
    (h2 : strLe b a = true) : a = b := by
  have h := charListLe_antisymm a.toList b.toList h1 h2
  cases a
  cases b
  exact congrArg String.mk (by simpa using h)

instance : IsTotal String (fun a b => strLe a b = true) :=
  ⟨strLe_total⟩

instance : IsTrans String (fun a b => strLe a b = true) :=
  ⟨fun _ _ _ => strLe_trans⟩

instance : IsAntisymm String (fun a b => strLe a b = true) :=
  ⟨fun _ _ => strLe_antisymm⟩

theorem sortStrings_sorted (l : List String) :
    List.Sorted (fun a b => strLe a b = true) (sortStrings l) :=
  List.sorted_insertionSort _ l

theorem sortStrings_perm (l : List String) : (sortStrings l).Perm l :=
  List.perm_insertionSort _ l

theorem sortStrings_eq_of_perm {l1 l2 : List String} (h : l1.Perm l2) :
    sortStrings l1 = sortStrings l2 :=
  List.eq_of_perm_of_sorted
    ((sortStrings_perm l1).trans (h.trans (sortStrings_perm l2).symm))
    (sortStrings_sorted l1) (sortStrings_sorted l2)

/-! Counting lemmas for the running in-degree. -/

theorem length_filter_ne (l : List String) (c : String) :
    (l.filter (fun d => !(d == c))).length = l.length - l.count c := by
  induction l with
  | nil => rfl
  | cons a l ih =>
    have hle := List.count_le_length c l
    by_cases hac : a = c
    · subst hac
      simp only [List.filter_cons, beq_self_eq_true, Bool.not_true,
        List.count_cons_self, List.length_cons]
      rw [if_neg (by simp)]
      rw [ih]
      omega
    · simp only [List.filter_cons, List.length_cons]
      rw [if_pos (by simp [hac]), List.count_cons_of_ne (Ne.symm hac)]
      simp only [List.length_cons]
      rw [ih]
      omega

theorem count_filter_not_mem (l R : List String) (c : String) (hc : c ∉ R) :
    (l.filter (fun d => !(R.contains d))).count c = l.count c := by
  induction l with
  | nil => rfl
  | cons a l ih =>
    by_cases haR : a ∈ R
    · rw [List.filter_cons, if_neg (by simpa using haR)]
      have hac : a ≠ c := fun hh => hc (hh ▸ haR)
      rw [List.count_cons_of_ne (by simpa using hac.symm), ih]
    · rw [List.filter_cons, if_pos (by simpa using haR)]
      by_cases hac : a = c
      · subst hac
        rw [List.count_cons_self, List.count_cons_self, ih]
      · rw [List.count_cons_of_ne (by simpa using (Ne.symm hac)),
          List.count_cons_of_ne (by simpa using (Ne.symm hac)), ih]

theorem degOfInt_nonneg (deps : String → List String) (R : List String)
    (p : String) : 0 ≤ degOfInt deps R p :=
  Int.natCast_nonneg _

theorem degOfInt_zero_iff (deps : String → List String) (R : List String)
    (p : String) : degOfInt deps R p = 0 ↔ ∀ d ∈ deps p, d ∈ R := by
  unfold degOfInt
  rw [show ((((deps p).filter (fun d => !(R.contains d))).length : Int) = 0)
      ↔ (((deps p).filter (fun d => !(R.contains d))).length = 0) by
    exact_mod_cast Iff.rfl]
  rw [List.length_eq_zero, List.filter_eq_nil_iff]
  constructor
  · intro h d hd
    have := h d hd
    simpa using this
  · intro h d hd
    simpa using h d hd

theorem degOfInt_append_single (deps : String → List String) (R : List String)
    (c p : String) (hc : c ∉ R) :
    degOfInt deps (R ++ [c]) p
      = degOfInt deps R p - ((deps p).count c : Int) := by
  unfold degOfInt
  have hfun : ((deps p).filter (fun d => !((R ++ [c]).contains d)))
      = ((deps p).filter (fun d => !(R.contains d))).filter
          (fun d => !(d == c)) := by
    rw [List.filter_filter]
    apply List.filter_congr
    intro d _
    by_cases hdR : d ∈ R
    · simp [hdR]
    · by_cases hdc : d = c
      · subst hdc
        simp [hdR]
      · simp [hdR, hdc]
  rw [hfun, length_filter_ne, count_filter_not_mem _ R c hc]
  have hle : (deps p).count c
      ≤ ((deps p).filter (fun d => !(R.contains d))).length := by
    rw [← count_filter_not_mem (deps p) R c hc]
    exact List.count_le_length _ _
  omega

theorem length_filter_imp {l : List String} {q q2 : String → Bool}
    (h : ∀ d, q2 d = true → q d = true) :
    (l.filter q2).length ≤ (l.filter q).length := by
  induction l with
  | nil => exact le_refl _
  | cons a l ih =>
    rw [List.filter_cons, List.filter_cons]
    by_cases ha : q2 a = true
    · rw [if_pos ha, if_pos (h a ha)]
      simpa using ih
    · rw [if_neg ha]
      by_cases ha2 : q a = true
      · rw [if_pos ha2]
        exact le_trans ih (by simp)
      · rw [if_neg ha2]
        exact ih

theorem degOfInt_append_le (deps : String → List String) (R S : List String)
    (p : String) : degOfInt deps (R ++ S) p ≤ degOfInt deps R p := by
  unfold degOfInt
  have himp : ∀ d, (!((R ++ S).contains d)) = true → (!(R.contains d)) = true := by
    intro d hd
    have hd2 : d ∉ R ++ S := by simpa using hd
    have hd3 : d ∉ R := fun hm => hd2 (by simp [hm])
    simpa using hd3
  exact_mod_cast @length_filter_imp (deps p) (fun d => !(R.contains d))
    (fun d => !((R ++ S).contains d)) himp

theorem count_le_degOfInt (deps : String → List String) (R : List String)
    (p c : String) (hc : c ∉ R) :
    ((deps p).count c : Int) ≤ degOfInt deps R p := by
  unfold degOfInt
  rw [← count_filter_not_mem (deps p) R c hc]
  exact_mod_cast List.count_le_length _ _

theorem TopoOrdered_mem_deg_zero (deps : String → List String)
    (R : List String) (ht : TopoOrdered deps R) (p : String) (hp : p ∈ R) :
    degOfInt deps R p = 0 := by
  obtain ⟨s, t, hst⟩ := List.append_of_mem hp
  rw [degOfInt_zero_iff]
  intro d hd
  rw [hst]
  have := ht s p t hst d hd
  simp [this]

theorem count_revOf (nodes : List String) (deps : String → List String)
    (c x : String) (hnd : nodes.Nodup) :
    (revOf nodes deps c).count x
      = if x ∈ nodes then (deps x).count c else 0 := by
  unfold revOf
  induction nodes with
  | nil => simp
  | cons p nodes ih =>
    have hnd2 := List.nodup_cons.mp hnd
    simp only [List.map_cons, List.flatten_cons, List.count_append]
    rw [ih hnd2.2]
    by_cases hx : x = p
    · subst hx
      rw [if_neg (by intro hh; exact hnd2.1 hh), if_pos (by simp)]
      simp [List.count_replicate]
    · rw [List.count_replicate, if_neg (by simpa using Ne.symm hx)]
      by_cases hxm : x ∈ nodes
      · rw [if_pos hxm, if_pos (by simp [hxm])]
        simp
      · rw [if_neg hxm, if_neg (by simp [hxm, hx])]

theorem mem_revOf {nodes : List String} {deps : String → List String}
    {c x : String} (h : x ∈ revOf nodes deps c) : x ∈ nodes := by
  unfold revOf at h
  rw [List.mem_flatten] at h
  obtain ⟨l, hl, hx⟩ := h
  rw [List.mem_map] at hl
  obtain ⟨p, hp, rfl⟩ := hl
  rw [List.eq_of_mem_replicate hx]
  exact hp

/-! Effect of the inner decrement loop of kahnLoop. -/

theorem decSteps_snd_append (ds : List String) (m : List (String × Int))
    (acc : List String) :
    (ds.foldl decStep (m, acc)).2 = acc ++ (ds.foldl decStep (m, [])).2 := by
  induction ds generalizing m acc with
  | nil => simp
  | cons d ds ih =>
    simp only [List.foldl_cons, decStep]
    by_cases h : lookupInt m d - 1 = 0
    · rw [if_pos h, if_pos h, ih _ (acc ++ [d]), ih _ ([] ++ [d])]
      simp
    · rw [if_neg h, if_neg h]
      exact ih _ acc

theorem lookupInt_jsMapSet (m : List (String × Int)) (k : String) (v : Int)
    (k2 : String) :
    lookupInt (jsMapSet m k v) k2 = if k2 = k then v else lookupInt m k2 := by
  unfold lookupInt
  rw [alistLookup_jsMapSet]
  by_cases h : k2 = k <;> simp [h]

theorem decSteps_fst_lookup (ds : List String) :
    ∀ (m : List (String × Int)) (acc : List String) (k : String),
      lookupInt ((ds.foldl decStep (m, acc)).1) k
        = lookupInt m k - (ds.count k : Int) := by
  induction ds with
  | nil => intro m acc k; simp
  | cons d ds ih =>
    intro m acc k
    simp only [List.foldl_cons, decStep]
    rw [ih _ _ k, lookupInt_jsMapSet]
    by_cases hkd : k = d
    · subst hkd
      rw [if_pos rfl, List.count_cons_self]
      push_cast
      ring
    · rw [if_neg hkd, List.count_cons_of_ne hkd]

theorem decSteps_snd_mem (ds : List String) :
    ∀ (m : List (String × Int)) (k : String),
      (k ∈ (ds.foldl decStep (m, [])).2) ↔
        (1 ≤ lookupInt m k ∧ lookupInt m k ≤ (ds.count k : Int)) := by
  induction ds with
  | nil =>
    intro m k
    constructor
    · intro h
      exact absurd h (List.not_mem_nil k)
    · intro h
      obtain ⟨h1, h2⟩ := h
      rw [List.count_nil] at h2
      exfalso
      push_cast at h2
      omega
  | cons d ds ih =>
    intro m k
    simp only [List.foldl_cons, decStep]
    rw [decSteps_snd_append]
    rw [List.mem_append, ih _ k, lookupInt_jsMapSet]
    by_cases hkd : k = d
    · subst hkd
      rw [if_pos rfl, List.count_cons_self]
      by_cases hz : lookupInt m k - 1 = 0
      · rw [if_pos hz]
        simp only [List.nil_append, List.mem_singleton]
        push_cast
        constructor
        · intro _
          omega
        · intro _
          exact Or.inl trivial
      · rw [if_neg hz]
        simp only [List.not_mem_nil, false_or]
        push_cast
        omega
    · rw [if_neg hkd, List.count_cons_of_ne hkd]
      by_cases hz : lookupInt m d - 1 = 0
      · rw [if_pos hz]
        simp [hkd]
      · rw [if_neg hz]
        simp

theorem decSteps_snd_nodup (ds : List String) :
    ∀ (m : List (String × Int)), (ds.foldl decStep (m, [])).2.Nodup := by
  induction ds with
  | nil => intro m; exact List.nodup_nil
  | cons d ds ih =>
    intro m
    simp only [List.foldl_cons, decStep]
    rw [decSteps_snd_append]
    by_cases hz : lookupInt m d - 1 = 0
    · rw [if_pos hz]
      simp only [List.nil_append, List.singleton_append, List.nodup_cons]
      refine ⟨?_, ih _⟩
      rw [decSteps_snd_mem]
      rw [lookupInt_jsMapSet, if_pos rfl, hz]
      intro hcon
      omega
    · rw [if_neg hz]
      simpa using ih _

theorem decSteps_fst_canon (nodes : List String) :
    ∀ (ds : List String), (∀ x ∈ ds, x ∈ nodes) →
    ∀ (δ : String → Int) (acc : List String),
    ((ds.foldl decStep (nodes.map (fun p => (p, δ p)), acc)).1)
      = nodes.map (fun p => (p, δ p - (ds.count p : Int))) := by
  intro ds
  induction ds with
  | nil =>
    intro _ δ acc
    simp
  | cons d ds ih =>
    intro hsub δ acc
    simp only [List.foldl_cons, decStep]
    have hd : d ∈ nodes := hsub d (by simp)
    have hlk : lookupInt (nodes.map (fun p => (p, δ p))) d = δ d := by
      unfold lookupInt
      rw [alistLookup_canon]
      simp [hd]
    rw [hlk, jsMapSet_canon nodes δ d _ hd]
    rw [ih (fun x hx => hsub x (by simp [hx]))
      (fun p => if p = d then δ d - 1 else δ p) _]
    apply List.map_congr_left
    intro p _
    by_cases hpd : p = d
    · subst hpd
      rw [if_pos rfl, List.count_cons_self]
      rw [Prod.mk.injEq]
      refine ⟨rfl, ?_⟩
      push_cast
      ring
    · rw [if_neg hpd, List.count_cons_of_ne hpd]

/-! TopoOrdered helper lemmas. -/

theorem TopoOrdered_nil (deps : String → List String) : TopoOrdered deps [] := by
  intro l p r2 h _ _
  exact absurd h (by simp)

theorem TopoOrdered_append_one (deps : String → List String) (R : List String)
    (c : String) (ht : TopoOrdered deps R) (hc : ∀ d ∈ deps c, d ∈ R) :
    TopoOrdered deps (R ++ [c]) := by
  intro l p r2 heq
  rcases List.eq_nil_or_concat r2 with rfl | ⟨r3, x, rfl⟩
  · have h2 : l ++ [p] = R ++ [c] := by simpa using heq.symm
    obtain ⟨hl, hp⟩ := List.append_inj h2 (by
      have := congrArg List.length h2
      simp at this
      omega)
    have hpc : p = c := by simpa using hp
    subst hpc
    subst hl
    exact hc
  · rw [List.concat_eq_append] at heq
    have h2 : (l ++ p :: r3) ++ [x] = R ++ [c] :=
      calc (l ++ p :: r3) ++ [x] = l ++ p :: (r3 ++ [x]) := by simp
        _ = R ++ [c] := heq.symm
    obtain ⟨h3, _⟩ := List.append_inj h2 (by
      have hlen := congrArg List.length h2
      simp only [List.length_append, List.length_cons, List.length_nil] at hlen
      simp only [List.length_append, List.length_cons]
      omega)
    intro d hd
    exact ht l p r3 h3.symm d hd

/-! Canonical forms of the initial structures of topologicalSort. -/

theorem edges_canon_of_keys :
    ∀ (edges : List (String × List String)) (nodes : List String),
      edges.map Prod.fst = nodes → nodes.Nodup →
      edges = nodes.map (fun p => (p, edgeDeps edges p)) := by
  intro edges
  induction edges with
  | nil =>
    intro nodes hk _
    rw [← hk]
    rfl
  | cons e rest ih =>
    intro nodes hk hnd
    rw [← hk] at hnd ⊢
    simp only [List.map_cons] at hnd ⊢
    congr 1
    · have hlk : edgeDeps (e :: rest) e.1 = e.2 := by
        unfold edgeDeps
        rw [alistLookup_cons, if_pos rfl]
        rfl
      rw [hlk]
    · have hnd2 := List.nodup_cons.mp hnd
      have hrest := ih (rest.map Prod.fst) rfl hnd2.2
      conv_lhs => rw [hrest]
      apply List.map_congr_left
      intro p hp
      have hpe : ¬ e.1 = p := fun hh => hnd2.1 (hh ▸ hp)
      unfold edgeDeps
      rw [alistLookup_cons, if_neg hpe]

theorem foldl_jsMapSet_update_canon (nodes : List String)
    (deps : String → List String) :
    ∀ (l : List String) (f : String → Int), (∀ x ∈ l, x ∈ nodes) →
      (l.map (fun p => (p, deps p))).foldl
        (fun m e => jsMapSet m e.1 ((e.2.length : Int)))
        (nodes.map (fun p => (p, f p)))
      = nodes.map
          (fun p => (p, if p ∈ l then ((deps p).length : Int) else f p)) := by
  intro l
  induction l with
  | nil =>
    intro f _
    apply List.map_congr_left
    intro p _
    simp
  | cons x l ih =>
    intro f hsub
    simp only [List.map_cons, List.foldl_cons]
    rw [jsMapSet_canon nodes f x _ (hsub x (by simp))]
    rw [ih (fun p => if p = x then ((deps x).length : Int) else f p)
      (fun y hy => hsub y (by simp [hy]))]
    apply List.map_congr_left
    intro p _
    by_cases hpl : p ∈ l
    · rw [if_pos hpl, if_pos (by simp [hpl])]
    · rw [if_neg hpl]
      by_cases hpx : p = x
      · subst hpx
        rw [if_pos rfl, if_pos (by simp)]
      · rw [if_neg hpx, if_neg (by simp [hpl, hpx])]

theorem initInDegrees_canon (nodes : List String)
    (deps : String → List String) (hnd : nodes.Nodup) :
    initInDegrees nodes (nodes.map (fun p => (p, deps p)))
      = nodes.map (fun p => (p, ((deps p).length : Int))) := by
  unfold initInDegrees
  have hbase : nodes.foldl (fun m n => jsMapSet m n (0 : Int)) []
      = nodes.map (fun p => (p, (0 : Int))) := by
    simpa using foldl_jsMapSet_fresh (fun _ => (0 : Int)) nodes []
      (by simpa using hnd)
  rw [hbase,
    foldl_jsMapSet_update_canon nodes deps nodes (fun _ => 0) (fun x hx => hx)]
  apply List.map_congr_left
  intro p hp
  rw [if_pos hp]

theorem foldl_push_canon (nodes : List String) (p0 : String) :
    ∀ (ds : List String) (g : String → List String), (∀ x ∈ ds, x ∈ nodes) →
      ds.foldl
        (fun m2 d => jsMapSet m2 d ((alistLookup m2 d).getD [] ++ [p0]))
        (nodes.map (fun q => (q, g q)))
      = nodes.map (fun q => (q, g q ++ List.replicate (ds.count q) p0)) := by
  intro ds
  induction ds with
  | nil =>
    intro g _
    simp
  | cons d ds ih =>
    intro g hsub
    simp only [List.foldl_cons]
    have hd : d ∈ nodes := hsub d (by simp)
    have hlk : (alistLookup (nodes.map (fun q => (q, g q))) d).getD [] = g d := by
      rw [alistLookup_canon]
      simp [hd]
    rw [hlk, jsMapSet_canon nodes g d _ hd]
    rw [ih (fun q => if q = d then g d ++ [p0] else g q)
      (fun y hy => hsub y (by simp [hy]))]
    apply List.map_congr_left
    intro q _
    by_cases hqd : q = d
    · subst hqd
      rw [if_pos rfl, List.count_cons_self]
      simp [List.replicate_succ]
    · rw [if_neg hqd, List.count_cons_of_ne hqd]

theorem foldl_rev_outer (nodes : List String) (deps : String → List String) :
    ∀ (l : List String) (g : String → List String),
      (∀ p ∈ l, ∀ d ∈ deps p, d ∈ nodes) →
      (l.map (fun p => (p, deps p))).foldl
        (fun m e => e.2.foldl
          (fun m2 d => jsMapSet m2 d ((alistLookup m2 d).getD [] ++ [e.1])) m)
        (nodes.map (fun q => (q, g q)))
      = nodes.map (fun q => (q, g q ++ revOf l deps q)) := by
  intro l
  induction l with
  | nil =>
    intro g _
    simp [revOf]
  | cons p l ih =>
    intro g hsub
    simp only [List.map_cons, List.foldl_cons]
    rw [foldl_push_canon nodes p (deps p) g (hsub p (by simp))]
    rw [ih (fun q => g q ++ List.replicate ((deps p).count q) p)
      (fun y hy => hsub y (by simp [hy]))]
    apply List.map_congr_left
    intro q _
    rw [Prod.mk.injEq]
    refine ⟨rfl, ?_⟩
    unfold revOf
    simp [List.append_assoc]

theorem initReverseDeps_canon (nodes : List String)
    (deps : String → List String) (hnd : nodes.Nodup)
    (hres : ∀ p ∈ nodes, ∀ d ∈ deps p, d ∈ nodes) :
    initReverseDeps nodes (nodes.map (fun p => (p, deps p)))
      = nodes.map (fun c => (c, revOf nodes deps c)) := by
  unfold initReverseDeps
  have hbase : nodes.foldl (fun m n => jsMapSet m n ([] : List String)) []
      = nodes.map (fun p => (p, ([] : List String))) := by
    simpa using foldl_jsMapSet_fresh (fun _ => ([] : List String)) nodes []
      (by simpa using hnd)
  rw [hbase, foldl_rev_outer nodes deps nodes (fun _ => []) hres]
  apply List.map_congr_left
  intro q _
  simp

theorem findMissingDep_eq_none_iff (nodes : List String)
    (edges : List (String × List String)) :
    findMissingDep nodes edges = none ↔ ∀ e ∈ edges, ∀ d ∈ e.2, d ∈ nodes := by
  unfold findMissingDep
  rw [List.findSome?_eq_none_iff]
  constructor
  · intro h e he d hd
    have h2 := h e he
    rw [Option.map_eq_none'] at h2
    have h3 := List.find?_eq_none.mp h2 d hd
    simpa using h3
  · intro h e he
    rw [Option.map_eq_none', List.find?_eq_none]
    intro d hd
    simp [h e he d hd]

theorem filterMap_canon_seeds (nodes : List String) (δ : String → Int) :
    (nodes.map (fun p => (p, δ p))).filterMap
        (fun e => if e.2 = 0 then some e.1 else none)
      = nodes.filter (fun p => δ p = 0) := by
  induction nodes with
  | nil => rfl
  | cons p nodes ih =>
    simp only [List.map_cons, List.filterMap_cons, List.filter_cons]
    by_cases hp : δ p = 0
    · rw [if_pos hp, if_pos (by simpa using hp), ih]
    · rw [if_neg hp, if_neg (by simpa using hp), ih]

theorem kahnLoop_nil_queue (rev : List (String × List String)) (fuel : Nat)
    (D : List (String × Int)) (R : List String) :
    kahnLoop rev fuel D [] R = R := by
  cases fuel <;> rfl

theorem kahnBatches_nil_queue (rev : List (String × List String)) (fuel : Nat)
    (D : List (String × Int)) :
    kahnBatches rev fuel D [] = [] := by
  cases fuel <;> rfl

/-- Master invariant lemma for the Kahn loop over a well-formed graph: the
loop equals the flattening of its batch trace appended to the done part, and
the final order is duplicate free, stays inside the node set, respects every
dependency, and leaves every unemitted node with a positive running
in-degree. -/
theorem kahnLoop_master (nodes : List String) (deps : String → List String)
    (hnd : nodes.Nodup) :
    ∀ (fuel : Nat) (Q R : List String),
      (∀ q ∈ Q, q ∈ nodes) →
      (∀ p ∈ R, p ∈ nodes) →
      (R ++ Q).Nodup →
      (∀ q ∈ Q, degOfInt deps R q = 0) →
      (∀ p ∈ nodes, p ∉ R → p ∉ Q → degOfInt deps R p ≠ 0) →
      TopoOrdered deps R →
      nodes.length ≤ fuel + R.length →
      ∃ F,
        kahnLoop (nodes.map (fun c => (c, revOf nodes deps c))) fuel
            (nodes.map (fun p => (p, degOfInt deps R p))) Q R = F ∧
        F = R ++ Q ++ ((kahnBatches (nodes.map (fun c => (c, revOf nodes deps c)))
            fuel (nodes.map (fun p => (p, degOfInt deps R p))) Q).flatten) ∧
        F.Nodup ∧ (∀ p ∈ F, p ∈ nodes) ∧ TopoOrdered deps F ∧
        (∀ p ∈ nodes, p ∉ F → degOfInt deps F p ≠ 0) := by
  intro fuel
  induction fuel with
  | zero =>
    intro Q R h1 h2 h3 h4 h5 h6 h7
    have hQnil : Q = [] := by
      cases hq : Q with
      | nil => rfl
      | cons q Q2 =>
        exfalso
        subst hq
        have hRnd : R.Nodup := (List.nodup_append.mp h3).1
        have hsub : R.Subperm nodes :=
          List.subperm_of_subset hRnd (fun x hx => h2 x hx)
        have hlen : nodes.length ≤ R.length := by simpa using h7
        have hperm : R.Perm nodes := hsub.perm_of_length_le hlen
        have hqR : q ∈ R := hperm.mem_iff.mpr (h1 q (by simp))
        exact (List.disjoint_of_nodup_append h3) hqR (by simp)
    subst hQnil
    refine ⟨R, kahnLoop_nil_queue _ _ _ _, ?_, ?_, h2, h6, ?_⟩
    · rw [kahnBatches_nil_queue]
      simp
    · simpa using h3
    · intro p hp hpR
      exact h5 p hp hpR (List.not_mem_nil p)
  | succ fuel ih =>
    intro Q R h1 h2 h3 h4 h5 h6 h7
    cases Q with
    | nil =>
      refine ⟨R, kahnLoop_nil_queue _ _ _ _, ?_, ?_, h2, h6, ?_⟩
      · rw [kahnBatches_nil_queue]
        simp
      · simpa using h3
      · intro p hp hpR
        exact h5 p hp hpR (List.not_mem_nil p)
    | cons current rest =>
      have hcur : current ∈ nodes := h1 current (by simp)
      have hcurR : current ∉ R := by
        intro hx
        exact (List.disjoint_of_nodup_append h3) hx (by simp)
      have hrevlk : alistLookup
          (nodes.map (fun c => (c, revOf nodes deps c))) current
          = some (revOf nodes deps current) := by
        rw [alistLookup_canon]
        simp [hcur]
      have hsub_ds : ∀ x ∈ revOf nodes deps current, x ∈ nodes :=
        fun x hx => mem_revOf hx
      have hfst : ((revOf nodes deps current).foldl decStep
          (nodes.map (fun p => (p, degOfInt deps R p)), [])).1
          = nodes.map (fun p => (p, degOfInt deps (R ++ [current]) p)) := by
        rw [decSteps_fst_canon nodes (revOf nodes deps current) hsub_ds
          (degOfInt deps R) []]
        apply List.map_congr_left
        intro p hp
        rw [Prod.mk.injEq]
        refine ⟨rfl, ?_⟩
        rw [count_revOf nodes deps current p hnd, if_pos hp,
          degOfInt_append_single deps R current p hcurR]
      have hnr : ∀ k, (k ∈ ((revOf nodes deps current).foldl decStep
          (nodes.map (fun p => (p, degOfInt deps R p)), [])).2)
          ↔ (k ∈ nodes ∧ 1 ≤ degOfInt deps R k ∧
              degOfInt deps (R ++ [current]) k = 0) := by
        intro k
        rw [decSteps_snd_mem]
        have hlk : lookupInt (nodes.map (fun p => (p, degOfInt deps R p))) k
            = if k ∈ nodes then degOfInt deps R k else 0 := by
          unfold lookupInt
          rw [alistLookup_canon]
          by_cases h : k ∈ nodes <;> simp [h]
        rw [hlk, count_revOf nodes deps current k hnd]
        by_cases hk : k ∈ nodes
        · rw [if_pos hk, if_pos hk]
          constructor
          · rintro ⟨hk1, hk2⟩
            refine ⟨hk, hk1, ?_⟩
            rw [degOfInt_append_single deps R current k hcurR]
            have hge := count_le_degOfInt deps R k current hcurR
            omega
          · rintro ⟨_, hk1, hk2⟩
            rw [degOfInt_append_single deps R current k hcurR] at hk2
            have hge := count_le_degOfInt deps R k current hcurR
            exact ⟨hk1, by omega⟩
        · rw [if_neg hk, if_neg hk]
          constructor
          · rintro ⟨hk1, hk2⟩
            exfalso
            omega
          · rintro ⟨hkm, _, _⟩
            exact absurd hkm hk
      have hnrnd := decSteps_snd_nodup (revOf nodes deps current)
        (nodes.map (fun p => (p, degOfInt deps R p)))
      have hnrR : ∀ k ∈ ((revOf nodes deps current).foldl decStep
          (nodes.map (fun p => (p, degOfInt deps R p)), [])).2, k ∉ R := by
        intro k hk hkR
        have h0 := TopoOrdered_mem_deg_zero deps R h6 k hkR
        have h1k := ((hnr k).mp hk).2.1
        omega
      have hnrQ : ∀ k ∈ ((revOf nodes deps current).foldl decStep
          (nodes.map (fun p => (p, degOfInt deps R p)), [])).2,
          k ∉ current :: rest := by
        intro k hk hkQ
        have hdeg := h4 k hkQ
        have h1k := ((hnr k).mp hk).2.1
        omega
      have hstep : kahnLoop (nodes.map (fun c => (c, revOf nodes deps c)))
          (fuel + 1) (nodes.map (fun p => (p, degOfInt deps R p)))
          (current :: rest) R
          = kahnLoop (nodes.map (fun c => (c, revOf nodes deps c))) fuel
            (nodes.map (fun p => (p, degOfInt deps (R ++ [current]) p)))
            (rest ++ sortStrings (((revOf nodes deps current).foldl decStep
              (nodes.map (fun p => (p, degOfInt deps R p)), [])).2))
            (R ++ [current]) := by
        rw [kahnLoop, hrevlk]
        simp only [Option.getD_some, hfst]
      have hbatch : kahnBatches (nodes.map (fun c => (c, revOf nodes deps c)))
          (fuel + 1) (nodes.map (fun p => (p, degOfInt deps R p)))
          (current :: rest)
          = sortStrings (((revOf nodes deps current).foldl decStep
              (nodes.map (fun p => (p, degOfInt deps R p)), [])).2)
            :: kahnBatches (nodes.map (fun c => (c, revOf nodes deps c))) fuel
              (nodes.map (fun p => (p, degOfInt deps (R ++ [current]) p)))
              (rest ++ sortStrings (((revOf nodes deps current).foldl decStep
                (nodes.map (fun p => (p, degOfInt deps R p)), [])).2)) := by
        rw [kahnBatches, hrevlk]
        simp only [Option.getD_some, hfst]
      have hsperm := sortStrings_perm (((revOf nodes deps current).foldl decStep
        (nodes.map (fun p => (p, degOfInt deps R p)), [])).2)
      have h1' : ∀ q ∈ rest ++ sortStrings (((revOf nodes deps current).foldl
          decStep (nodes.map (fun p => (p, degOfInt deps R p)), [])).2),
          q ∈ nodes := by
        intro q hq
        rcases List.mem_append.mp hq with hq | hq
        · exact h1 q (by simp [hq])
        · exact ((hnr q).mp (hsperm.mem_iff.mp hq)).1
      have h2' : ∀ p ∈ R ++ [current], p ∈ nodes := by
        intro p hp
        rcases List.mem_append.mp hp with hp | hp
        · exact h2 p hp
        · rw [List.mem_singleton.mp hp]
          exact hcur
      have h3' : ((R ++ [current]) ++ (rest ++ sortStrings
          (((revOf nodes deps current).foldl decStep
            (nodes.map (fun p => (p, degOfInt deps R p)), [])).2))).Nodup := by
        have hbig : ((R ++ current :: rest) ++ (((revOf nodes deps current).foldl
            decStep (nodes.map (fun p => (p, degOfInt deps R p)), [])).2)).Nodup := by
          rw [List.nodup_append]
          refine ⟨h3, hnrnd, ?_⟩
          intro a haL haNR
          rcases List.mem_append.mp haL with ha | ha
          · exact hnrR a haNR ha
          · exact hnrQ a haNR ha
        have hperm2 : ((R ++ [current]) ++ (rest ++ sortStrings
            (((revOf nodes deps current).foldl decStep
              (nodes.map (fun p => (p, degOfInt deps R p)), [])).2))).Perm
            ((R ++ current :: rest) ++ (((revOf nodes deps current).foldl
              decStep (nodes.map (fun p => (p, degOfInt deps R p)), [])).2)) := by
          have e1 : (R ++ [current]) ++ (rest ++ sortStrings
              (((revOf nodes deps current).foldl decStep
                (nodes.map (fun p => (p, degOfInt deps R p)), [])).2))
              = (R ++ current :: rest) ++ sortStrings
                (((revOf nodes deps current).foldl decStep
                  (nodes.map (fun p => (p, degOfInt deps R p)), [])).2) := by
            simp
          rw [e1]
          exact List.Perm.append_left (R ++ current :: rest) hsperm
        exact hperm2.symm.nodup hbig
      have h4' : ∀ q ∈ rest ++ sortStrings (((revOf nodes deps current).foldl
          decStep (nodes.map (fun p => (p, degOfInt deps R p)), [])).2),
          degOfInt deps (R ++ [current]) q = 0 := by
        intro q hq
        rcases List.mem_append.mp hq with hq | hq
        · have hq0 := h4 q (by simp [hq])
          have hle := degOfInt_append_le deps R [current] q
          have hge := degOfInt_nonneg deps (R ++ [current]) q
          omega
        · exact ((hnr q).mp (hsperm.mem_iff.mp hq)).2.2
      have h5' : ∀ p ∈ nodes, p ∉ R ++ [current] →
          p ∉ rest ++ sortStrings (((revOf nodes deps current).foldl decStep
            (nodes.map (fun p => (p, degOfInt deps R p)), [])).2) →
          degOfInt deps (R ++ [current]) p ≠ 0 := by
        intro p hp hpR2 hpQ2 hdeg0
        by_cases hdeg : degOfInt deps R p = 0
        · by_cases hpR : p ∈ R
          · exact hpR2 (List.mem_append.mpr (Or.inl hpR))
          · by_cases hpQ : p ∈ current :: rest
            · rcases List.mem_cons.mp hpQ with hpc | hpr
              · exact hpR2 (List.mem_append.mpr (Or.inr (by simp [hpc])))
              · exact hpQ2 (List.mem_append.mpr (Or.inl hpr))
            · exact h5 p hp hpR hpQ hdeg
        · have hmem : p ∈ ((revOf nodes deps current).foldl decStep
              (nodes.map (fun q => (q, degOfInt deps R q)), [])).2 := by
            rw [hnr p]
            have := degOfInt_nonneg deps R p
            exact ⟨hp, by omega, hdeg0⟩
          exact hpQ2 (List.mem_append.mpr (Or.inr (hsperm.mem_iff.mpr hmem)))
      have h6' : TopoOrdered deps (R ++ [current]) := by
        apply TopoOrdered_append_one deps R current h6
        rw [← degOfInt_zero_iff]
        exact h4 current (by simp)
      have h7' : nodes.length ≤ fuel + (R ++ [current]).length := by
        simp only [List.length_append, List.length_cons, List.length_nil]
        omega
      obtain ⟨F, hF, hFjoin, hFnd, hFmem, hFord, hFdeg⟩ :=
        ih (rest ++ sortStrings (((revOf nodes deps current).foldl decStep
          (nodes.map (fun p => (p, degOfInt deps R p)), [])).2))
          (R ++ [current]) h1' h2' h3' h4' h5' h6' h7'
      refine ⟨F, ?_, ?_, hFnd, hFmem, hFord, hFdeg⟩
      · rw [hstep, hF]
      · rw [hbatch, hFjoin]
        simp

/-- The Kahn loop result does not depend on the enumeration order of the
node set: runs over permuted node lists with pointwise equal degree
functions coincide. -/
theorem kahnLoop_perm_indep (nodes1 nodes2 : List String)
    (deps : String → List String) (hnd1 : nodes1.Nodup)
    (hperm : nodes1.Perm nodes2) :
    ∀ (fuel : Nat) (δ : String → Int) (Q R : List String),
      kahnLoop (nodes1.map (fun c => (c, revOf nodes1 deps c))) fuel
          (nodes1.map (fun p => (p, δ p))) Q R
        = kahnLoop (nodes2.map (fun c => (c, revOf nodes2 deps c))) fuel
          (nodes2.map (fun p => (p, δ p))) Q R := by
  have hnd2 : nodes2.Nodup := hperm.nodup hnd1
  intro fuel
  induction fuel with
  | zero => intro δ Q R; rfl
  | succ fuel ih =>
    intro δ Q R
    cases Q with
    | nil => rw [kahnLoop_nil_queue, kahnLoop_nil_queue]
    | cons current rest =>
      by_cases hcur : current ∈ nodes1
      · have hcur2 : current ∈ nodes2 := hperm.mem_iff.mp hcur
        have hlk1 : alistLookup
            (nodes1.map (fun c => (c, revOf nodes1 deps c))) current
            = some (revOf nodes1 deps current) := by
          rw [alistLookup_canon]
          simp [hcur]
        have hlk2 : alistLookup
            (nodes2.map (fun c => (c, revOf nodes2 deps c))) current
            = some (revOf nodes2 deps current) := by
          rw [alistLookup_canon]
          simp [hcur2]
        have hfst1 : ((revOf nodes1 deps current).foldl decStep
            (nodes1.map (fun p => (p, δ p)), [])).1
            = nodes1.map (fun p => (p, δ p - (((deps p).count current : Nat) : Int))) := by
          rw [decSteps_fst_canon nodes1 (revOf nodes1 deps current)
            (fun x hx => mem_revOf hx) δ []]
          apply List.map_congr_left
          intro p hp
          rw [Prod.mk.injEq]
          exact ⟨rfl, by rw [count_revOf nodes1 deps current p hnd1, if_pos hp]⟩
        have hfst2 : ((revOf nodes2 deps current).foldl decStep
            (nodes2.map (fun p => (p, δ p)), [])).1
            = nodes2.map (fun p => (p, δ p - (((deps p).count current : Nat) : Int))) := by
          rw [decSteps_fst_canon nodes2 (revOf nodes2 deps current)
            (fun x hx => mem_revOf hx) δ []]
          apply List.map_congr_left
          intro p hp
          rw [Prod.mk.injEq]
          exact ⟨rfl, by rw [count_revOf nodes2 deps current p hnd2, if_pos hp]⟩
        have hmem1 : ∀ k, (k ∈ ((revOf nodes1 deps current).foldl decStep
            (nodes1.map (fun p => (p, δ p)), [])).2)
            ↔ (k ∈ nodes1 ∧ 1 ≤ δ k ∧ δ k ≤ (((deps k).count current : Nat) : Int)) := by
          intro k
          rw [decSteps_snd_mem]
          have hlk : lookupInt (nodes1.map (fun p => (p, δ p))) k
              = if k ∈ nodes1 then δ k else 0 := by
            unfold lookupInt
            rw [alistLookup_canon]
            by_cases h : k ∈ nodes1 <;> simp [h]
          rw [hlk, count_revOf nodes1 deps current k hnd1]
          by_cases hk : k ∈ nodes1
          · rw [if_pos hk, if_pos hk]
            constructor
            · rintro ⟨a, b⟩
              exact ⟨hk, a, b⟩
            · rintro ⟨_, a, b⟩
              exact ⟨a, b⟩
          · rw [if_neg hk, if_neg hk]
            constructor
            · rintro ⟨a, b⟩
              exfalso
              omega
            · rintro ⟨hkm, _, _⟩
              exact absurd hkm hk
        have hmem2 : ∀ k, (k ∈ ((revOf nodes2 deps current).foldl decStep
            (nodes2.map (fun p => (p, δ p)), [])).2)
            ↔ (k ∈ nodes2 ∧ 1 ≤ δ k ∧ δ k ≤ (((deps k).count current : Nat) : Int)) := by
          intro k
          rw [decSteps_snd_mem]
          have hlk : lookupInt (nodes2.map (fun p => (p, δ p))) k
              = if k ∈ nodes2 then δ k else 0 := by
            unfold lookupInt
            rw [alistLookup_canon]
            by_cases h : k ∈ nodes2 <;> simp [h]
          rw [hlk, count_revOf nodes2 deps current k hnd2]
          by_cases hk : k ∈ nodes2
          · rw [if_pos hk, if_pos hk]
            constructor
            · rintro ⟨a, b⟩
              exact ⟨hk, a, b⟩
            · rintro ⟨_, a, b⟩
              exact ⟨a, b⟩
          · rw [if_neg hk, if_neg hk]
            constructor
            · rintro ⟨a, b⟩
              exfalso
              omega
            · rintro ⟨hkm, _, _⟩
              exact absurd hkm hk
        have hndnr1 := decSteps_snd_nodup (revOf nodes1 deps current)
          (nodes1.map (fun p => (p, δ p)))
        have hndnr2 := decSteps_snd_nodup (revOf nodes2 deps current)
          (nodes2.map (fun p => (p, δ p)))
        have hnrperm : (((revOf nodes1 deps current).foldl decStep
            (nodes1.map (fun p => (p, δ p)), [])).2).Perm
            (((revOf nodes2 deps current).foldl decStep
              (nodes2.map (fun p => (p, δ p)), [])).2) := by
          apply List.perm_of_nodup_nodup_toFinset_eq hndnr1 hndnr2
          apply Finset.ext
          intro a
          rw [List.mem_toFinset, List.mem_toFinset, hmem1 a, hmem2 a,
            hperm.mem_iff]
        have hsnd : sortStrings (((revOf nodes1 deps current).foldl decStep
            (nodes1.map (fun p => (p, δ p)), [])).2)
            = sortStrings (((revOf nodes2 deps current).foldl decStep
              (nodes2.map (fun p => (p, δ p)), [])).2) :=
          sortStrings_eq_of_perm hnrperm
        rw [kahnLoop, kahnLoop, hlk1, hlk2]
        simp only [Option.getD_some, hfst1, hfst2]
        rw [hsnd]
        exact ih (fun p => δ p - (((deps p).count current : Nat) : Int)) _ _
      · have hcur2 : current ∉ nodes2 := fun h => hcur (hperm.mem_iff.mpr h)
        have hlk1 : alistLookup
            (nodes1.map (fun c => (c, revOf nodes1 deps c))) current = none := by
          rw [alistLookup_canon]
          simp [hcur]
        have hlk2 : alistLookup
            (nodes2.map (fun c => (c, revOf nodes2 deps c))) current = none := by
          rw [alistLookup_canon]
          simp [hcur2]
        rw [kahnLoop, kahnLoop, hlk1, hlk2]
        simp only [Option.getD_none, List.foldl_nil]
        exact ih δ (rest ++ sortStrings []) (R ++ [current])

theorem degOfInt_nil (deps : String → List String) (p : String) :
    degOfInt deps [] p = (((deps p).length : Nat) : Int) := by
  unfold degOfInt
  simp

/-- Characterization of a successful topologicalSort run over a canonical
edge list: the result is a permutation of the nodes, respects every
dependency, and is the concatenation of the sorted ready batches. -/
theorem topologicalSort_ok_props (nodes : List String)
    (deps : String → List String) (hnd : nodes.Nodup) (r : List String)
    (hok : topologicalSort
      { nodes := nodes, edges := nodes.map (fun p => (p, deps p)) } = .ok r) :
    r.Perm nodes ∧ TopoOrdered deps r ∧
    r = (topologicalBatches
      { nodes := nodes, edges := nodes.map (fun p => (p, deps p)) }).flatten := by
  unfold topologicalSort at hok
  simp only at hok
  cases hmiss : findMissingDep nodes (nodes.map (fun p => (p, deps p))) with
  | some pd =>
    rw [hmiss] at hok
    exact absurd hok (by simp)
  | none =>
    rw [hmiss] at hok
    have hres : ∀ p ∈ nodes, ∀ d ∈ deps p, d ∈ nodes := by
      have h := (findMissingDep_eq_none_iff nodes _).mp hmiss
      intro p hp d hd
      exact h (p, deps p) (List.mem_map_of_mem _ hp) d hd
    rw [initInDegrees_canon nodes deps hnd,
      initReverseDeps_canon nodes deps hnd hres, filterMap_canon_seeds] at hok
    have hmapeq : nodes.map (fun p => (p, ((deps p).length : Int)))
        = nodes.map (fun p => (p, degOfInt deps [] p)) := by
      apply List.map_congr_left
      intro p _
      rw [degOfInt_nil]
    rw [hmapeq] at hok
    have hQsub : ∀ q ∈ sortStrings (nodes.filter
        (fun p => ((deps p).length : Int) = 0)), q ∈ nodes := by
      intro q hq
      have := (sortStrings_perm _).mem_iff.mp hq
      exact (List.mem_filter.mp this).1
    have hQnd : (([] : List String) ++ sortStrings (nodes.filter
        (fun p => ((deps p).length : Int) = 0))).Nodup := by
      simp only [List.nil_append]
      exact (sortStrings_perm _).symm.nodup (hnd.filter _)
    have hQzero : ∀ q ∈ sortStrings (nodes.filter
        (fun p => ((deps p).length : Int) = 0)), degOfInt deps [] q = 0 := by
      intro q hq
      have hm := (sortStrings_perm _).mem_iff.mp hq
      have := List.of_mem_filter hm
      rw [degOfInt_nil]
      simpa using this
    have hready : ∀ p ∈ nodes, p ∉ ([] : List String) →
        p ∉ sortStrings (nodes.filter (fun p => ((deps p).length : Int) = 0)) →
        degOfInt deps [] p ≠ 0 := by
      intro p hp _ hpQ hdeg
      apply hpQ
      rw [(sortStrings_perm _).mem_iff]
      rw [List.mem_filter]
      rw [degOfInt_nil] at hdeg
      exact ⟨hp, by simpa using hdeg⟩
    obtain ⟨F, hF, hFjoin, hFnd, hFmem, hFord, hFdeg⟩ :=
      kahnLoop_master nodes deps hnd nodes.length
        (sortStrings (nodes.filter (fun p => ((deps p).length : Int) = 0))) []
        hQsub (by simp) hQnd hQzero hready (TopoOrdered_nil deps) (by simp)
    rw [hF] at hok
    by_cases hlen : F.length ≠ nodes.length
    · rw [if_pos hlen] at hok
      exact absurd hok (by simp)
    · rw [if_neg hlen] at hok
      have hFr : F = r := by simpa using hok
      subst hFr
      have hsub : F.Subperm nodes :=
        List.subperm_of_subset hFnd (fun x hx => hFmem x hx)
      have hperm : F.Perm nodes := hsub.perm_of_length_le (by omega)
      refine ⟨hperm, hFord, ?_⟩
      unfold topologicalBatches
      simp only
      rw [initInDegrees_canon nodes deps hnd,
        initReverseDeps_canon nodes deps hnd hres, filterMap_canon_seeds,
        hmapeq]
      rw [List.flatten_cons]
      simpa using hFjoin

/-- Completeness: a fully resolvable dependency set admitting a rank function
(each dependency strictly smaller) makes topologicalSort succeed. -/
theorem topologicalSort_complete (nodes : List String)
    (deps : String → List String) (hnd : nodes.Nodup)
    (hres : ∀ p ∈ nodes, ∀ d ∈ deps p, d ∈ nodes) (rank : String → Nat)
    (hrank : ∀ p ∈ nodes, ∀ d ∈ deps p, rank d < rank p) :
    ∃ r, topologicalSort
      { nodes := nodes, edges := nodes.map (fun p => (p, deps p)) } = .ok r := by
  unfold topologicalSort
  simp only
  have hmiss : findMissingDep nodes (nodes.map (fun p => (p, deps p))) = none := by
    rw [findMissingDep_eq_none_iff]
    intro e he d hd
    obtain ⟨p, hp, rfl⟩ := List.mem_map.mp he
    exact hres p hp d hd
  rw [hmiss]
  rw [initInDegrees_canon nodes deps hnd,
    initReverseDeps_canon nodes deps hnd hres, filterMap_canon_seeds]
  have hmapeq : nodes.map (fun p => (p, ((deps p).length : Int)))
      = nodes.map (fun p => (p, degOfInt deps [] p)) := by
    apply List.map_congr_left
    intro p _
    rw [degOfInt_nil]
  rw [hmapeq]
  have hQsub : ∀ q ∈ sortStrings (nodes.filter
      (fun p => ((deps p).length : Int) = 0)), q ∈ nodes := by
    intro q hq
    have := (sortStrings_perm _).mem_iff.mp hq
    exact (List.mem_filter.mp this).1
  have hQnd : (([] : List String) ++ sortStrings (nodes.filter
      (fun p => ((deps p).length : Int) = 0))).Nodup := by
    simp only [List.nil_append]
    exact (sortStrings_perm _).symm.nodup (hnd.filter _)
  have hQzero : ∀ q ∈ sortStrings (nodes.filter
      (fun p => ((deps p).length : Int) = 0)), degOfInt deps [] q = 0 := by
    intro q hq
    have hm := (sortStrings_perm _).mem_iff.mp hq
    have := List.of_mem_filter hm
    rw [degOfInt_nil]
    simpa using this
  have hready : ∀ p ∈ nodes, p ∉ ([] : List String) →
      p ∉ sortStrings (nodes.filter (fun p => ((deps p).length : Int) = 0)) →
      degOfInt deps [] p ≠ 0 := by
    intro p hp _ hpQ hdeg
    apply hpQ
    rw [(sortStrings_perm _).mem_iff, List.mem_filter]
    rw [degOfInt_nil] at hdeg
    exact ⟨hp, by simpa using hdeg⟩
  obtain ⟨F, hF, _, hFnd, hFmem, _, hFdeg⟩ :=
    kahnLoop_master nodes deps hnd nodes.length
      (sortStrings (nodes.filter (fun p => ((deps p).length : Int) = 0))) []
      hQsub (by simp) hQnd hQzero hready (TopoOrdered_nil deps) (by simp)
  rw [hF]
  have hall : ∀ n : Nat, ∀ p ∈ nodes, rank p = n → p ∈ F := by
    intro n
    induction n using Nat.strong_induction_on with
    | _ n ihn =>
      intro p hp hrn
      by_contra hpF
      have hdeg := hFdeg p hp hpF
      have hnall : ¬ ∀ d ∈ deps p, d ∈ F := fun hal =>
        hdeg ((degOfInt_zero_iff deps F p).mpr hal)
      push_neg at hnall
      obtain ⟨d, hd, hdF⟩ := hnall
      have hdn : d ∈ nodes := hres p hp d hd
      exact hdF (ihn (rank d) (hrn ▸ hrank p hp d hd) d hdn rfl)
  have hsub1 : F.Subperm nodes :=
    List.subperm_of_subset hFnd (fun x hx => hFmem x hx)
  have hsub2 : nodes.Subperm F :=
    List.subperm_of_subset hnd (fun x hx => hall (rank x) x hx rfl)
  have hlen : F.length = nodes.length :=
    le_antisymm hsub1.length_le hsub2.length_le
  rw [if_neg (by omega)]
  exact ⟨F, rfl⟩

/-! Claim C10: the output of a successful sort is a permutation of the
node set. -/

/-- C10: whenever topologicalSort returns without throwing on a graph whose
edge keys are exactly its nodes, the result contains every node exactly once
(a permutation of the node set), including when dependency lists contain
duplicate entries. -/
theorem topologicalSort_perm_of_ok (g : DependencyGraph)
    (hk : g.edges.map Prod.fst = g.nodes) (hnd : g.nodes.Nodup)
    (r : List String) (hok : topologicalSort g = .ok r) :
    r.Perm g.nodes := by
  obtain ⟨nodes, edges⟩ := g
  simp only at hk hnd hok ⊢
  have hcanon := edges_canon_of_keys edges nodes hk hnd
  rw [hcanon] at hok
  exact (topologicalSort_ok_props nodes (edgeDeps edges) hnd r hok).1

/-- Witness for C10: a small graph with a duplicated dependency entry. -/
theorem topologicalSort_perm_of_ok_witness :
    (["a", "b"] : List String).Perm ["b", "a"] :=
  topologicalSort_perm_of_ok
    { nodes := ["b", "a"], edges := [("b", ["a", "a"]), ("a", [])] }
    (by rfl) (by decide) ["a", "b"] (by rfl)

/-! Claim C6: dequeue order of the ready queue. -/

/-- C6 counterexample: in the graph a, b, c with b depending on a, the
second node emitted is c although b is ready and lexicographically smaller
(b became ready only after a was emitted and is queued behind c), refuting
that every dequeued node is the smallest currently ready one. -/
theorem minReadyDequeue_counterexample :
    ¬ minReadyDequeue
      { nodes := ["a", "b", "c"],
        edges := [("a", []), ("b", ["a"]), ("c", [])] } := by
  intro h
  have hr := h ["a", "c", "b"] (by rfl) 1 (by decide) "b"
    ⟨by decide, by decide, by decide⟩
  exact absurd hr (by decide)

theorem kahnBatches_are_sorted (rev : List (String × List String)) :
    ∀ (fuel : Nat) (D : List (String × Int)) (Q : List String),
      ∀ b ∈ kahnBatches rev fuel D Q, ∃ l, b = sortStrings l := by
  intro fuel
  induction fuel with
  | zero =>
    intro D Q b hb
    rw [show kahnBatches rev 0 D Q = [] from rfl] at hb
    exact absurd hb (List.not_mem_nil b)
  | succ fuel ih =>
    intro D Q b hb
    cases Q with
    | nil =>
      rw [kahnBatches_nil_queue] at hb
      exact absurd hb (List.not_mem_nil b)
    | cons current rest =>
      simp only [kahnBatches, List.mem_cons] at hb
      rcases hb with rfl | hb
      · exact ⟨_, rfl⟩
      · exact ih _ _ b hb

theorem topologicalBatches_sorted (g : DependencyGraph) :
    ∀ b ∈ topologicalBatches g,
      List.Sorted (fun a b2 => strLe a b2 = true) b := by
  intro b hb
  simp only [topologicalBatches, List.mem_cons] at hb
  rcases hb with rfl | hb
  · exact sortStrings_sorted _
  · obtain ⟨l, rfl⟩ := kahnBatches_are_sorted _ _ _ _ b hb
    exact sortStrings_sorted _

/-- C6 amended: the loop dequeues the head of a FIFO queue, so a successful
sort emits exactly the concatenation of the ready batches in creation order
(the alphabetically sorted zero-in-degree seeds, then each alphabetically
sorted newly-ready batch); the dequeued node is the smallest of its own
batch but not necessarily the smallest of all currently ready nodes. -/
theorem topologicalSort_batches_amended (g : DependencyGraph)
    (hk : g.edges.map Prod.fst = g.nodes) (hnd : g.nodes.Nodup)
    (r : List String) (hok : topologicalSort g = .ok r) :
    r = (topologicalBatches g).flatten ∧
    ∀ b ∈ topologicalBatches g,
      List.Sorted (fun a b2 => strLe a b2 = true) b := by
  refine ⟨?_, topologicalBatches_sorted g⟩
  obtain ⟨nodes, edges⟩ := g
  simp only at hk hnd hok ⊢
  have hcanon := edges_canon_of_keys edges nodes hk hnd
  rw [hcanon] at hok ⊢
  exact (topologicalSort_ok_props nodes (edgeDeps edges) hnd r hok).2.2

/-- Witness for the amended C6 at the counterexample graph: the emitted
order a, c, b is the flattening of the batches [a, c], [b]. -/
theorem topologicalSort_batches_amended_witness :
    (["a", "c", "b"] : List String)
      = (topologicalBatches
          { nodes := ["a", "b", "c"],
            edges := [("a", []), ("b", ["a"]), ("c", [])] }).flatten ∧
    ∀ b ∈ topologicalBatches
        { nodes := ["a", "b", "c"],
          edges := [("a", []), ("b", ["a"]), ("c", [])] },
      List.Sorted (fun a b2 => strLe a b2 = true) b :=
  topologicalSort_batches_amended
    { nodes := ["a", "b", "c"], edges := [("a", []), ("b", ["a"]), ("c", [])] }
    (by rfl) (by decide) ["a", "c", "b"] (by rfl)

/-! Claim C5: adding a cycle-creating dependency fails and persists nothing. -/

theorem indexOf_append_left (s r2 : List String) (d : String) (hd : d ∈ s) :
    (s ++ r2).indexOf d = s.indexOf d := by
  induction s with
  | nil => exact absurd hd (List.not_mem_nil d)
  | cons a s ih =>
    by_cases had : a = d
    · subst had
      simp [List.indexOf_cons_self]
    · rw [List.cons_append, List.indexOf_cons_ne _ had,
        List.indexOf_cons_ne _ had]
      rcases List.mem_cons.mp hd with rfl | hds
      · exact absurd rfl had
      · rw [ih hds]

theorem TopoOrdered_indexOf_lt (deps : String → List String)
    (r : List String) (hnd : r.Nodup) (ht : TopoOrdered deps r)
    (p d : String) (hp : p ∈ r) (hd : d ∈ deps p) :
    r.indexOf d < r.indexOf p := by
  obtain ⟨s, t, rfl⟩ := List.append_of_mem hp
  have hdl : d ∈ s := ht s p t rfl d hd
  rw [indexOf_append_cons s t p hnd, indexOf_append_left s (p :: t) d hdl]
  exact List.indexOf_lt_length.mpr hdl

theorem chain_getLast_indexOf_lt (deps : String → List String)
    (r : List String) (hnd : r.Nodup) (ht : TopoOrdered deps r) :
    ∀ (c : List String) (x : String) (hc : c ≠ []),
      List.Chain (fun a b => b ∈ deps a) x c → x ∈ r → (∀ z ∈ c, z ∈ r) →
      r.indexOf (c.getLast hc) < r.indexOf x := by
  intro c
  induction c with
  | nil => intro x hc; exact absurd rfl hc
  | cons b c ih =>
    intro x hc hchain hx hsub
    rw [List.chain_cons] at hchain
    have hbr : b ∈ r := hsub b (by simp)
    have h1 : r.indexOf b < r.indexOf x :=
      TopoOrdered_indexOf_lt deps r hnd ht x b hx hchain.1
    cases c with
    | nil =>
      rw [List.getLast_singleton]
      exact h1
    | cons e c2 =>
      have h2 := ih b (by simp) hchain.2 hbr (fun z hz => hsub z (by simp [hz]))
      rw [List.getLast_cons (by simp : (e :: c2) ≠ [])]
      exact lt_trans h2 h1

/-- C5: when appending dependsOn to the dependency list of patch creates a
cycle (witnessed by a dependency chain from a node back to itself in the
trial manifest), addDependency returns an error and the persisted manifest is
exactly the one from before the attempt — nothing is saved. -/
theorem addDependency_cycle_fails (storedPatches : List String)
    (stored : Manifest) (patch dependsOn : String)
    (hnd : storedPatches.Nodup)
    (hnew : dependsOn ∉ ((stored patch).getD {}).dependencies.getD [])
    (x : String) (c : List String) (hcne : c ≠ [])
    (hchain : List.Chain
      (fun a b => b ∈ depsOf (addDependencyTrial stored patch dependsOn) a) x c)
    (hlast : (x :: c).getLast (by simp) = x)
    (hsub : ∀ z ∈ x :: c, z ∈ storedPatches) :
    (addDependency storedPatches stored patch dependsOn).1 = stored ∧
    ((addDependency storedPatches stored patch dependsOn).2).isSome = true := by
  unfold addDependency
  split
  · exact ⟨rfl, rfl⟩
  · split
    · exact ⟨rfl, rfl⟩
    · split
      · exact ⟨rfl, rfl⟩
      · split
        · next hcon =>
          exact absurd (by simpa using hcon) hnew
        · split
          · exact ⟨rfl, rfl⟩
          · next r heq =>
            exfalso
            rw [buildDependencyGraph_eq storedPatches _ hnd] at heq
            obtain ⟨hperm, hord, _⟩ := topologicalSort_ok_props storedPatches
              (depsOf (addDependencyTrial stored patch dependsOn)) hnd r heq
            have hndr : r.Nodup := hperm.symm.nodup hnd
            have hxr : x ∈ r := hperm.mem_iff.mpr (hsub x (by simp))
            have hcr : ∀ z ∈ c, z ∈ r :=
              fun z hz => hperm.mem_iff.mpr (hsub z (by simp [hz]))
            have hlt := chain_getLast_indexOf_lt
              (depsOf (addDependencyTrial stored patch dependsOn)) r hndr hord
              c x hcne hchain hxr hcr
            have hgl : c.getLast hcne = x := by
              rw [← hlast]
              exact (List.getLast_cons hcne).symm
            rw [hgl] at hlt
            exact lt_irrefl _ hlt

/-- Witness for C5: two stored patches where P1 already depends on P2 and the
attempt P2 depends on P1 closes the cycle P1, P2, P1. -/
theorem addDependency_cycle_fails_witness :
    (addDependency ["P1", "P2"]
        (fun p => if p = "P1"
          then some { dependencies := some ["P2"] } else none)
        "P2" "P1").1
      = (fun p => if p = "P1"
          then some { dependencies := some ["P2"] } else none) ∧
    ((addDependency ["P1", "P2"]
        (fun p => if p = "P1"
          then some { dependencies := some ["P2"] } else none)
        "P2" "P1").2).isSome = true :=
  addDependency_cycle_fails ["P1", "P2"]
    (fun p => if p = "P1" then some { dependencies := some ["P2"] } else none)
    "P2" "P1" (by decide) (by decide) "P1" ["P2", "P1"] (by simp)
    (List.Chain.cons (by decide) (List.Chain.cons (by decide) List.Chain.nil))
    (by decide) (by decide)

/-- A successful sort transfers to any permutation of the node list: the
emitted order depends only on the node set and the dependency lists. -/
theorem topologicalSort_ok_perm_transfer (names1 names2 : List String)
    (deps : String → List String) (hnd : names1.Nodup)
    (hperm : names1.Perm names2) (r : List String)
    (hok : topologicalSort
      { nodes := names1, edges := names1.map (fun p => (p, deps p)) } = .ok r) :
    topologicalSort
      { nodes := names2, edges := names2.map (fun p => (p, deps p)) } = .ok r := by
  have hnd2 : names2.Nodup := hperm.nodup hnd
  unfold topologicalSort at hok ⊢
  simp only at hok ⊢
  cases hmiss1 : findMissingDep names1 (names1.map (fun p => (p, deps p))) with
  | some pd =>
    rw [hmiss1] at hok
    exact absurd hok (by simp)
  | none =>
    rw [hmiss1] at hok
    have hres : ∀ p ∈ names1, ∀ d ∈ deps p, d ∈ names1 := by
      have h := (findMissingDep_eq_none_iff names1 _).mp hmiss1
      intro p hp d hd
      exact h (p, deps p) (List.mem_map_of_mem _ hp) d hd
    have hres2 : ∀ p ∈ names2, ∀ d ∈ deps p, d ∈ names2 := by
      intro p hp d hd
      exact hperm.mem_iff.mp
        (hres p (hperm.mem_iff.mpr hp) d hd)
    have hmiss2 : findMissingDep names2 (names2.map (fun p => (p, deps p)))
        = none := by
      rw [findMissingDep_eq_none_iff]
      intro e he d hd
      obtain ⟨p, hp, rfl⟩ := List.mem_map.mp he
      exact hres2 p hp d hd
    rw [hmiss2]
    rw [initInDegrees_canon names1 deps hnd,
      initReverseDeps_canon names1 deps hnd hres, filterMap_canon_seeds] at hok
    rw [initInDegrees_canon names2 deps hnd2,
      initReverseDeps_canon names2 deps hnd2 hres2, filterMap_canon_seeds]
    have hseeds : sortStrings (names2.filter
        (fun p => ((deps p).length : Int) = 0))
        = sortStrings (names1.filter (fun p => ((deps p).length : Int) = 0)) :=
      sortStrings_eq_of_perm ((hperm.symm).filter _)
    rw [hseeds]
    have hlen : names2.length = names1.length := hperm.length_eq.symm
    rw [hlen]
    rw [← kahnLoop_perm_indep names1 names2 deps hnd hperm names1.length
      (fun p => ((deps p).length : Int))
      (sortStrings (names1.filter (fun p => ((deps p).length : Int) = 0))) []]
    generalize kahnLoop (names1.map (fun c => (c, revOf names1 deps c)))
      names1.length (names1.map (fun p => (p, ((deps p).length : Int))))
      (sortStrings (names1.filter (fun p => ((deps p).length : Int) = 0))) []
      = K at hok ⊢
    by_cases hlen : K.length ≠ names1.length
    · rw [if_pos hlen] at hok
      exact absurd hok (by simp)
    · rw [if_neg hlen] at hok ⊢
      exact hok

/-! Claim C1: correctness and determinism of the sorted order. -/

/-- C1: for an acyclic (rank-ordered), fully resolvable dependency set, the
sort succeeds with an order in which each dependency precedes its dependent,
and the output is the same for every enumeration order of the patch names
given to buildDependencyGraph (and, being a pure function, across repeated
runs on unchanged input). -/
theorem topologicalSort_correct_deterministic (manifest : Manifest)
    (names1 names2 : List String) (hnd : names1.Nodup)
    (hperm : names1.Perm names2)
    (hres : ∀ p ∈ names1, ∀ d ∈ depsOf manifest p, d ∈ names1)
    (rank : String → Nat)
    (hrank : ∀ p ∈ names1, ∀ d ∈ depsOf manifest p, rank d < rank p) :
    ∃ r, topologicalSort (buildDependencyGraph names1 manifest) = .ok r ∧
      topologicalSort (buildDependencyGraph names2 manifest) = .ok r ∧
      ∀ p ∈ names1, ∃ pre post, r = pre ++ p :: post ∧
        ∀ d ∈ depsOf manifest p, d ∈ pre := by
  have hnd2 : names2.Nodup := hperm.nodup hnd
  rw [buildDependencyGraph_eq names1 manifest hnd,
    buildDependencyGraph_eq names2 manifest hnd2]
  obtain ⟨r, hok1⟩ :=
    topologicalSort_complete names1 (depsOf manifest) hnd hres rank hrank
  have hok2 := topologicalSort_ok_perm_transfer names1 names2
    (depsOf manifest) hnd hperm r hok1
  obtain ⟨hperm1, hord, _⟩ :=
    topologicalSort_ok_props names1 (depsOf manifest) hnd r hok1
  refine ⟨r, hok1, hok2, ?_⟩
  intro p hp
  have hpr : p ∈ r := hperm1.mem_iff.mpr hp
  obtain ⟨pre, post, rfl⟩ := List.append_of_mem hpr
  exact ⟨pre, post, rfl, fun d hd => hord pre p post rfl d hd⟩

/-- Witness for C1: Scenario A of the spec, both enumeration orders of the
store yield the same sorted order. -/
theorem topologicalSort_correct_deterministic_witness :
    ∃ r, topologicalSort (buildDependencyGraph ["P1", "P2"]
        (fun p => if p = "P2"
          then some { dependencies := some ["P1"] } else none)) = .ok r ∧
      topologicalSort (buildDependencyGraph ["P2", "P1"]
        (fun p => if p = "P2"
          then some { dependencies := some ["P1"] } else none)) = .ok r ∧
      ∀ p ∈ (["P1", "P2"] : List String), ∃ pre post, r = pre ++ p :: post ∧
        ∀ d ∈ depsOf (fun p2 => if p2 = "P2"
          then some { dependencies := some ["P1"] } else none) p, d ∈ pre :=
  topologicalSort_correct_deterministic
    (fun p => if p = "P2" then some { dependencies := some ["P1"] } else none)
    ["P1", "P2"] ["P2", "P1"] (by decide) (by decide) (by decide)
    (fun p => if p = "P2" then 1 else 0) (by decide)
